import Mathlib

/-!
# pssthumb: shallow embedding of `src/pssthumb.c`

The C program reads a Paintstorm Studio document, decodes the run-length
encoded composite image and prints it as a PPM (P3) pixel-map.

Conventions of the embedding
* a byte of the file or of a `char` buffer is a `Fin 256`;
* `char` is the signed 8 bit type of the usual x86 ABI (`to_char`), a value
  that does not fit is narrowed modulo `2^8` (`int_to_char`), and `<<` on a
  negative `int` shifts its two's complement pattern;
* `unsigned int` is 32 bits wide, `unsigned short` 16 bits wide; every
  operation that can leave the range carries its `% 2^32` or `% 2^16`;
* the host is little-endian (the length table is read through an
  `unsigned short *`);
* `malloc` and `realloc` succeed, `read` on the opened file transfers every
  byte that the file still holds, and the file is shorter than `2^31` bytes
  (its size is kept in an `int`);
* a cell of a `malloc` block that was never written holds an indeterminate
  byte: the environment `Env` fixes those bytes (`heap_*`);
* `placeholder.h` is not part of the sources: its three names are fields of
  `Env`;
* fields named `reads`, `pairs`, `starts` and `events` are ghost state: they
  record which cells the code read, which pairs it consumed and which
  allocations and reads it performed, and never influence a result;
* `realloc_count` and `u_getat_reads` are ghost functions: they count the
  calls of `realloc` and list the cells of the array that are read;
* `render` gives the characters that the `fprintf` calls of a line write.
-/

namespace Pssthumb

/-! ## Constants -/

abbrev byte := Fin 256

def INITIAL_SIZE : Nat := 256
def MAX_RES : Nat := 10000
def PSS_HEAD : Nat := 40
def MAXCOL : Nat := 255

/-- The file signature `fsig[4] = {0x6A, 0x87, 0x01, 0x00}`. -/
def fsig (i : Nat) : byte :=
  match i with
  | 0 => 0x6A
  | 1 => 0x87
  | 2 => 0x01
  | _ => 0x00

/-! ## Machine integers -/

/-- Value of a byte read through a (signed) `char` lvalue. -/
def to_char (b : byte) : Int :=
  if b.val < 128 then (b.val : Int) else (b.val : Int) - 256

/-- Conversion of an `int` to `char`: reduction modulo `2^8` into `[-128,127]`. -/
def int_to_char (x : Int) : Int :=
  (x + 128) % 256 - 128

/-- Conversion of an `int` to `unsigned int`: the 32 bit two's complement pattern. -/
def int_to_uint (x : Int) : Nat :=
  (x % 4294967296).toNat

/-- The function `uswap16(char* ptr)` applied to the two bytes `ptr[0]`, `ptr[1]`:
`raw = (ptr[0] << 8) | ptr[1]` is computed on sign-extended `int`s and cut to 16 bits,
`swap = (raw>>8) | (raw<<8)` is cut to 16 bits again. -/
def uswap16 (p0 p1 : byte) : Nat :=
  let raw : Nat := (((int_to_uint (to_char p0)) <<< 8) % 4294967296 ||| int_to_uint (to_char p1)) % 65536
  let swap : Nat := ((raw >>> 8) ||| (raw <<< 8)) % 65536
  swap

/-! ## Channel container -/

/-- The struct `ch_buf`. The field `array` lists the cells `array[0..]` written so far. -/
structure ch_buf where
  size : Nat
  capacity : Nat
  array : List byte
deriving DecidableEq, Repr

/-- The container that `u_init` stores through `arr_ptr`. -/
def u_init : ch_buf :=
  { size := 0, capacity := INITIAL_SIZE, array := [] }

/-- The function `u_getat`: `-1` out of bounds, else `container->array[index]`. -/
def u_getat (container : ch_buf) (index : Nat) : Int :=
  if index ≥ container.size then -1
  else ((container.array.getD index 0).val : Int)

/-- The function `u_append`: double the capacity when full, then store at `size++`.
Since `realloc` succeeds, the early return after "Out of memory" is never taken. -/
def u_append (container : ch_buf) (value : byte) : ch_buf :=
  let capacity :=
    if container.size = container.capacity then (container.capacity <<< 1) % 4294967296
    else container.capacity
  { size := (container.size + 1) % 4294967296
    capacity := capacity
    array := container.array ++ [value] }

/-! ## Run-length decoder -/

/-- State of the decode loop of `main`. -/
structure rle_state where
  image : Nat → ch_buf
  offset : Nat
  offset_local : Nat
  repeat_c : Nat
  out_channel_len : Nat → Nat
  /-- indices of `comp_img` read while decoding each channel, in order -/
  reads : Nat → List Nat
  /-- the pairs `(repeat, pattern)` consumed while decoding each channel, in order -/
  pairs : Nat → List (Int × byte)
  /-- value of `offset` when the decode of each channel began -/
  starts : Nat → Nat

/-- The loop `for (char r = 0; r < repeat; r++) u_append(image[ch], pattern);`.
The first numeric argument is fuel; `repeat` is at most 127, so 128 is never used up
(`repeat_loop_eq`). -/
def repeat_loop (pattern : byte) (repeat_ : Int) : Nat → Int → ch_buf → ch_buf
  | 0, _, c => c
  | fuel + 1, r, c =>
    if r < repeat_ then repeat_loop pattern repeat_ fuel (int_to_char (r + 1)) (u_append c pattern)
    else c

/-- One pass through the body of the inner loop (one control/value pair) for channel `ch`,
including the `offset_local += 2` that follows it.
`Except.error` is `goto cleanup`. -/
def rle_pair (comp_img : Nat → byte) (ch : Nat) (s : rle_state) : Except rle_state rle_state :=
  let pattern : byte := comp_img ((s.offset + s.offset_local + 1) % 4294967296)
  let repeat_ : Int := to_char (comp_img ((s.offset + s.offset_local) % 4294967296))
  let s := { s with
    reads := Function.update s.reads ch
      (s.reads ch ++ [(s.offset + s.offset_local + 1) % 4294967296,
                      (s.offset + s.offset_local) % 4294967296]),
    pairs := Function.update s.pairs ch (s.pairs ch ++ [(repeat_, pattern)]) }
  if repeat_ = 0 then
    .ok { s with
      repeat_c := (s.repeat_c + 1) % 4294967296,
      image := Function.update s.image ch (u_append (s.image ch) pattern),
      offset_local := (s.offset_local + 2) % 4294967296 }
  else if repeat_ ≥ -127 ∧ repeat_ ≤ -1 then
    let repeat_ : Int := int_to_char (repeat_ * -1 + 1)
    .ok { s with
      repeat_c := int_to_uint ((s.repeat_c : Int) + repeat_),
      image := Function.update s.image ch (repeat_loop pattern repeat_ 128 0 (s.image ch)),
      offset_local := (s.offset_local + 2) % 4294967296 }
  else if repeat_ > 0 ∧ repeat_ < 127 then
    .error s
  else
    .error s

/-- The loop `for (offset_local = ..; offset_local < rle_channel_size[ch]; offset_local+=2)`,
entered after the initialisation of `offset_local`. The first numeric argument is fuel;
`rle_channel` passes the channel size, which is never used up (`rle_pairs_fuel`). -/
def rle_pairs (comp_img : Nat → byte) (size : Nat) (ch : Nat) :
    Nat → rle_state → Except rle_state rle_state
  | 0, s => .ok s
  | fuel + 1, s =>
    if s.offset_local < size then
      match rle_pair comp_img ch s with
      | .ok s1 => rle_pairs comp_img size ch fuel s1
      | .error s1 => .error s1
    else .ok s

/-- One pass through the body of the loop over `ch`. -/
def rle_channel (comp_img : Nat → byte) (rle_channel_size : Nat → Nat) (ch : Nat)
    (s : rle_state) : Except rle_state rle_state :=
  let s := { s with offset_local := 0, starts := Function.update s.starts ch s.offset }
  match rle_pairs comp_img (rle_channel_size ch) ch (rle_channel_size ch) s with
  | .error s1 => .error s1
  | .ok s1 =>
    .ok { s1 with
      offset := (s1.offset + s1.offset_local) % 4294967296,
      out_channel_len := Function.update s1.out_channel_len ch s1.repeat_c,
      repeat_c := 0 }

/-- The state before the loop over the encoded array: three fresh containers, counters zero. -/
def rle_init : rle_state :=
  { image := fun _ => u_init
    offset := 0
    offset_local := 0
    repeat_c := 0
    out_channel_len := fun _ => 0
    reads := fun _ => []
    pairs := fun _ => []
    starts := fun _ => 0 }

/-- The loop `for (unsigned char ch = 0; ch < 3; ch++)` over the encoded array. -/
def rle_decode (comp_img : Nat → byte) (rle_channel_size : Nat → Nat) :
    Except rle_state rle_state :=
  match rle_channel comp_img rle_channel_size 0 rle_init with
  | .error s => .error s
  | .ok s0 =>
    match rle_channel comp_img rle_channel_size 1 s0 with
    | .error s => .error s
    | .ok s1 => rle_channel comp_img rle_channel_size 2 s1

/-! ## Length table -/

/-- The function `ucomb16`: the two bytes at `ptr` read through an `unsigned short *`
on a little-endian host. -/
def ucomb16 (p0 p1 : byte) : Nat :=
  p0.val + 256 * p1.val

/-- The totals kept while the length table is parsed. -/
structure table_state where
  rle_total_encoded_size : Nat
  rle_channel_size : Nat → Nat
  offset : Nat

/-- The loop `for (unsigned int i = 0; i < rle_channel_length; i+=2)` for channel `ch`.
The value stored in `compdata_for_channel[ch][i]` is `swap`; it is read back only by
the two sums. The first numeric argument is fuel; `table_channel` passes
`rle_channel_length`, which is never used up (`table_entries_sum`). -/
def table_entries (buf : Nat → byte) (rle_channel_length ch : Nat) :
    Nat → Nat → table_state → table_state
  | 0, _, t => t
  | fuel + 1, i, t =>
    if i < rle_channel_length then
      let ptr : Nat := (i + t.offset) % 4294967296
      let raw : Nat := ucomb16 (buf ptr) (buf (ptr + 1))
      let swap : Nat := ((raw >>> 8) ||| (raw <<< 8)) % 65536
      table_entries buf rle_channel_length ch fuel ((i + 2) % 4294967296)
        { t with
          rle_total_encoded_size := (t.rle_total_encoded_size + swap) % 4294967296,
          rle_channel_size :=
            Function.update t.rle_channel_size ch ((t.rle_channel_size ch + swap) % 4294967296) }
    else t

/-- One pass through the body of the loop over `ch` of the length-table parser. -/
def table_channel (buf : Nat → byte) (rle_channel_length ch : Nat) (t : table_state) :
    table_state :=
  let t1 := table_entries buf rle_channel_length ch rle_channel_length 0 t
  { t1 with offset := (t1.offset + rle_channel_length) % 4294967296 }

/-- The block "parse rle compression info" of `main`. -/
def parse_table (buf : Nat → byte) (rle_channel_length : Nat) : table_state :=
  let t : table_state :=
    { rle_total_encoded_size := 0, rle_channel_size := fun _ => 0, offset := 0 }
  table_channel buf rle_channel_length 2
    (table_channel buf rle_channel_length 1 (table_channel buf rle_channel_length 0 t))

/-! ## Environment, output and `main` -/

/-- What the program cannot see in its own text: the contents of `placeholder.h` and the
bytes found in freshly allocated blocks. -/
structure Env where
  PLACEHOLDER_WIDTH : Nat
  PLACEHOLDER_HEIGHT : Nat
  placeholder : Nat → Nat
  heap_head : Nat → byte
  heap_table : Nat → byte
  heap_img : Nat → byte

/-- One line written to standard output. -/
inductive OutLine where
  /-- the line `P3` -/
  | tag
  /-- the line `"%d %d\n"` with width and height -/
  | dims (w h : Nat)
  /-- the line `255` -/
  | maxval
  /-- the line `"%d %d %d\n"` of the decoded image -/
  | pixel (r g b : Int)
  /-- the line `"%u %u %u \n"` of the placeholder -/
  | grey (v : Nat)
deriving DecidableEq, Repr

/-- Allocations and reads, in program order (ghost). -/
inductive Event where
  | malloc (bytes : Nat)
  | read (pos count : Nat)
  | u_init (ch : Nat)
deriving DecidableEq, Repr

/-- What a run of `main` leaves behind. -/
structure Result where
  status : Nat
  stdout : List OutLine
  events : List Event
deriving DecidableEq, Repr

/-- The call `read(fd, buf, count)` at file position `pos`: the number of bytes
transferred and the buffer afterwards. -/
def read (file : List byte) (pos : Nat) (buf : Nat → byte) (count : Nat) :
    Nat × (Nat → byte) :=
  let n := min count (file.length - pos)
  (n, fun i => if i < n then file.getD (pos + i) 0 else buf i)

/-- The function `print_placeholder`. -/
def print_placeholder (env : Env) : List OutLine :=
  [OutLine.tag, OutLine.dims env.PLACEHOLDER_WIDTH env.PLACEHOLDER_HEIGHT, OutLine.maxval] ++
    (List.range (env.PLACEHOLDER_WIDTH * env.PLACEHOLDER_WIDTH)).map
      (fun offset => OutLine.grey (env.placeholder offset))

/-- The label `cleanup:` of `main`. -/
def cleanup (env : Env) (events : List Event) : Result :=
  { status := 1, stdout := print_placeholder env, events := events }

/-- The block "write data to PPM" of `main`. -/
def write_ppm (res_w res_h : Nat) (image : Nat → ch_buf) : List OutLine :=
  let pixel_count : Nat := (res_h * res_w) % 4294967296
  [OutLine.tag, OutLine.dims res_w res_h, OutLine.maxval] ++
    (List.range pixel_count).map
      (fun i => OutLine.pixel (u_getat (image 0) i) (u_getat (image 1) i) (u_getat (image 2) i))

/-- The check "number of decoded pixels in channels diverge" of `main`. -/
def lengths_diverge (out_channel_len : Nat → Nat) : Bool :=
  out_channel_len 0 != out_channel_len 1 || out_channel_len 1 != out_channel_len 2
    || out_channel_len 0 != out_channel_len 2

/-- The part of `main` from "load RLE compressed image into buffer" to the end. -/
def main_rle (env : Env) (file : List byte) (res_w res_h pos : Nat) (t : table_state)
    (events : List Event) : Result :=
  let comp_img := (read file pos env.heap_img t.rle_total_encoded_size).2
  let events := events ++
    [Event.malloc t.rle_total_encoded_size, Event.read pos t.rle_total_encoded_size,
     Event.u_init 0, Event.u_init 1, Event.u_init 2]
  match rle_decode comp_img t.rle_channel_size with
  | .error _ => cleanup env events
  | .ok s =>
    if lengths_diverge s.out_channel_len then cleanup env events
    else { status := 0, stdout := write_ppm res_w res_h s.image, events := events }

/-- The part of `main` from "read rle header into buffer" on. -/
def main_table (env : Env) (file : List byte) (res_w res_h : Nat) (events : List Event) :
    Result :=
  let rle_channel_length : Nat := (res_h * 2) % 4294967296
  let rle_header_size : Nat := (rle_channel_length * 3) % 4294967296
  let events := events ++ [Event.malloc rle_header_size, Event.read PSS_HEAD rle_header_size]
  let r := read file PSS_HEAD env.heap_table rle_header_size
  let bytes_read := r.1
  let buf := r.2
  if bytes_read = 0 then cleanup env events
  else
    let events := events ++
      [Event.malloc (rle_channel_length * 4), Event.malloc (rle_channel_length * 4),
       Event.malloc (rle_channel_length * 4)]
    main_rle env file res_w res_h (PSS_HEAD + bytes_read) (parse_table buf rle_channel_length) events

/-- The part of `main` from the extraction of the resolution on: bomb protection. -/
def main_dims (env : Env) (file : List byte) (buf : Nat → byte) (events : List Event) :
    Result :=
  let res_w : Nat := uswap16 (buf 8) (buf 9)
  let res_h : Nat := uswap16 (buf 12) (buf 13)
  if res_w > MAX_RES ∨ res_h > MAX_RES then cleanup env events
  else main_table env file res_w res_h events

/-- The loop "check if file contains pss signature": `true` when some `fsig[i] != buf[i]`. -/
def signature_mismatch (buf : Nat → byte) : Bool :=
  (List.range 4).any (fun i => to_char (fsig i) != to_char (buf i))

/-- The function `main` once the file named on the command line is open. -/
def main (env : Env) (file : List byte) : Result :=
  let fsize := file.length
  if fsize < PSS_HEAD then { status := 1, stdout := [], events := [] }
  else
    let events := [Event.malloc PSS_HEAD, Event.read 0 PSS_HEAD]
    let r := read file 0 env.heap_head PSS_HEAD
    let bytes_read := r.1
    let buf := r.2
    if bytes_read < 1 then cleanup env events
    else if signature_mismatch buf then cleanup env events
    else main_dims env file buf events

/-! ## Names for the values `main` computes -/

/-- The 40 byte buffer `buf` after the first `read`. -/
def header (env : Env) (file : List byte) : Nat → byte :=
  (read file 0 env.heap_head PSS_HEAD).2

/-- The value of `res_w`. -/
def width (env : Env) (file : List byte) : Nat :=
  uswap16 (header env file 8) (header env file 9)

/-- The value of `res_h`. -/
def height (env : Env) (file : List byte) : Nat :=
  uswap16 (header env file 12) (header env file 13)

/-- The value of `rle_channel_length`. -/
def channel_length (env : Env) (file : List byte) : Nat :=
  (height env file * 2) % 4294967296

/-- The value of `rle_header_size`. -/
def header_size (env : Env) (file : List byte) : Nat :=
  (channel_length env file * 3) % 4294967296

/-- The result of the `read` that fetches the length table. -/
def table_read (env : Env) (file : List byte) : Nat × (Nat → byte) :=
  read file PSS_HEAD env.heap_table (header_size env file)

/-- The totals after the length table is parsed. -/
def length_table (env : Env) (file : List byte) : table_state :=
  parse_table (table_read env file).2 (channel_length env file)

/-- The buffer `comp_img` after the last `read`. -/
def payload (env : Env) (file : List byte) : Nat → byte :=
  (read file (PSS_HEAD + (table_read env file).1) env.heap_img
    (length_table env file).rle_total_encoded_size).2

/-- The outcome of the decode loop on the document. -/
def decoded (env : Env) (file : List byte) : Except rle_state rle_state :=
  rle_decode (payload env file) (length_table env file).rle_channel_size

/-- The state in which the decode loop stopped, whether it ended or jumped to `cleanup`. -/
def final_state (r : Except rle_state rle_state) : rle_state :=
  match r with
  | .ok s => s
  | .error s => s

/-- The events of a run that reaches the decode loop. -/
def decode_events (env : Env) (file : List byte) : List Event :=
  [Event.malloc PSS_HEAD, Event.read 0 PSS_HEAD,
   Event.malloc (header_size env file), Event.read PSS_HEAD (header_size env file),
   Event.malloc (channel_length env file * 4), Event.malloc (channel_length env file * 4),
   Event.malloc (channel_length env file * 4),
   Event.malloc (length_table env file).rle_total_encoded_size,
   Event.read (PSS_HEAD + (table_read env file).1) (length_table env file).rle_total_encoded_size,
   Event.u_init 0, Event.u_init 1, Event.u_init 2]

/-- The document passes every check that precedes the decode loop: it holds a header, the
signature matches, the resolution is within `MAX_RES` and the length table was read. -/
def accepted (env : Env) (file : List byte) : Prop :=
  PSS_HEAD ≤ file.length ∧ signature_mismatch (header env file) = false ∧
    width env file ≤ MAX_RES ∧ height env file ≤ MAX_RES ∧ (table_read env file).1 ≠ 0

instance (env : Env) (file : List byte) : Decidable (accepted env file) := by
  unfold accepted; infer_instance

/-! ## Vocabulary of the statements -/

/-- The control bytes the decode loop accepts: `repeat == 0` or `-127 <= repeat <= -1`. -/
def valid_control (c : Int) : Prop :=
  -127 ≤ c ∧ c ≤ 0

instance (c : Int) : Decidable (valid_control c) := by
  unfold valid_control; infer_instance

/-- The state after the two reads of a pair: only the ghost fields change. -/
def note_pair (comp_img : Nat → byte) (ch : Nat) (s : rle_state) : rle_state :=
  { s with
    reads := Function.update s.reads ch
      (s.reads ch ++ [(s.offset + s.offset_local + 1) % 4294967296,
                      (s.offset + s.offset_local) % 4294967296]),
    pairs := Function.update s.pairs ch
      (s.pairs ch ++ [(to_char (comp_img ((s.offset + s.offset_local) % 4294967296)),
                       comp_img ((s.offset + s.offset_local + 1) % 4294967296))]) }

/-- Every pair consumed so far has an accepted control byte. -/
def all_valid (s : rle_state) : Prop :=
  ∀ k p, p ∈ s.pairs k → valid_control p.1

/-- Some pair consumed so far has a rejected control byte. -/
def some_invalid (s : rle_state) : Prop :=
  ∃ k p, p ∈ s.pairs k ∧ ¬ valid_control p.1

/-- Whether the decode loop ended without a jump to `cleanup`. -/
def is_ok (r : Except rle_state rle_state) : Bool :=
  match r with
  | .ok _ => true
  | .error _ => false

/-- The big-endian value of entry `r` of channel `c` in a length table of height `h`. -/
def table_entry (buf : Nat → byte) (h c r : Nat) : Nat :=
  256 * (buf (2 * h * c + 2 * r)).val + (buf (2 * h * c + 2 * r + 1)).val

/-- The least even number that is at least `n`: the value of `offset_local` when the loop
over a channel of `n` bytes ends. -/
def even_up (n : Nat) : Nat :=
  2 * ((n + 1) / 2)

/-- The value of `offset` when channel `c` begins, if no earlier channel jumped to `cleanup`. -/
def stream_start (sizes : Nat → Nat) (c : Nat) : Nat :=
  ∑ k ∈ Finset.range c, even_up (sizes k)

/-! ## Concrete inputs -/

/-- An environment for the concrete runs: a 2x2 placeholder, fresh blocks full of zeros. -/
def env0 : Env :=
  { PLACEHOLDER_WIDTH := 2, PLACEHOLDER_HEIGHT := 2, placeholder := fun _ => 0,
    heap_head := fun _ => 0, heap_table := fun _ => 0, heap_img := fun _ => 0 }

/-- A 40 byte header with the signature, the bytes `w0 w1` at offset 8 and `h0 h1` at
offset 12, zero elsewhere. -/
def header_bytes (w0 w1 h0 h1 : byte) : List byte :=
  [0x6A, 0x87, 0x01, 0x00, 0, 0, 0, 0, w0, w1, 0, 0, h0, h1] ++ List.replicate 26 0

/-- A 1x1 document: every channel holds the single literal pair `(0, value)`. -/
def tiny_doc : List byte :=
  header_bytes 1 0 1 0 ++ [0, 2, 0, 2, 0, 2] ++ [0, 0x10, 0, 0x20, 0, 0x30]

/-- A document whose first channel starts with the control byte `0x05`. -/
def bad_doc : List byte :=
  header_bytes 1 0 1 0 ++ [0, 2, 0, 0, 0, 0] ++ [0x05, 0x10]

/-- A channel stream: the pair `(0x81, 7)` followed by literal pairs `(0, 7)`. -/
def wrap_stream : Nat → byte :=
  fun i => if i = 0 then 0x81 else if i % 2 = 1 then 7 else 0

/-- The value that `%d` prints for an `unsigned int` argument. -/
def uint_as_int (x : Nat) : Int :=
  if x < 2147483648 then (x : Int) else (x : Int) - 4294967296

/-- The characters one `fprintf` group writes for a line of the output. -/
def render (l : OutLine) : String :=
  match l with
  | .tag => "P3\n"
  | .dims w h => toString (uint_as_int w) ++ " " ++ toString (uint_as_int h) ++ "\n"
  | .maxval => "255\n"
  | .pixel r g b => toString r ++ " " ++ toString g ++ " " ++ toString b ++ "\n"
  | .grey v => toString v ++ " " ++ toString v ++ " " ++ toString v ++ " \n"

/-- The value of `pixel_count`. -/
def pixel_count (res_w res_h : Nat) : Nat :=
  (res_h * res_w) % 4294967296

/-! ## Sequences of `u_append` -/

/-- The calls `u_append(container, v)` for the values `v` of a sequence, in order. -/
def append_all (values : List byte) (container : ch_buf) : ch_buf :=
  values.foldl u_append container

/-- The number of calls in `append_all` that enter the branch `size == capacity`, where
`u_append` doubles the capacity and calls `realloc` (ghost). -/
def realloc_count : List byte → ch_buf → Nat
  | [], _ => 0
  | v :: vs, c => (if c.size = c.capacity then 1 else 0) + realloc_count vs (u_append c v)

/-- The cells of `container->array` that `u_getat` reads (ghost). -/
def u_getat_reads (container : ch_buf) (index : Nat) : List Nat :=
  if index ≥ container.size then [] else [index]

/-! ## Counts of the decode loop -/

/-- The run length that the format gives a pair: 1 for control 0, `(-control)+1` for a
control in `[-127,-1]`. -/
def run_length (p : Int × byte) : Nat :=
  if p.1 = 0 then 1 else (-p.1 + 1).toNat

/-- What the decode loop adds to `repeat_c` for an accepted pair: 1 for control 0, else the
`char` that `repeat = repeat * -1 + 1` leaves in `repeat`. -/
def counted (p : Int × byte) : Int :=
  if p.1 = 0 then 1 else int_to_char (p.1 * -1 + 1)

/-- The number of values the decode loop appends for an accepted pair. -/
def appended (p : Int × byte) : Nat :=
  (counted p).toNat

/-- The values the decode loop appends for a list of accepted pairs. -/
def expand : List (Int × byte) → List byte
  | [] => []
  | p :: ps => List.replicate (appended p) p.2 ++ expand ps

/-! ## Complete documents -/

/-- The document holds its whole length table and its whole payload, and the decode loop
stays within the payload: no byte that `main` looks at comes from a fresh block. -/
def complete (env : Env) (file : List byte) : Prop :=
  accepted env file ∧
    PSS_HEAD + header_size env file + (length_table env file).rle_total_encoded_size
      ≤ file.length ∧
    stream_start (length_table env file).rle_channel_size 3
      ≤ (length_table env file).rle_total_encoded_size

instance (env : Env) (file : List byte) : Decidable (complete env file) := by
  unfold complete; infer_instance

/-! ## More concrete inputs -/

/-- The synthetic 2x1 document: resolution bytes `02 00` / `01 00`, length-table bytes
`02 00` per channel, payload `00 10 00 20 00 30`. -/
def synth_doc : List byte :=
  header_bytes 2 0 1 0 ++ [2, 0, 2, 0, 2, 0] ++ [0, 0x10, 0, 0x20, 0, 0x30]

/-- A 2x1 document whose length table holds the big-endian entry 4 for each channel and
whose payload holds the literal pairs `(0, 0x10)`, `(0, 0x20)` for each channel. -/
def synth_doc_even : List byte :=
  header_bytes 2 0 1 0 ++ [0, 4, 0, 4, 0, 4] ++
    [0, 0x10, 0, 0x20, 0, 0x10, 0, 0x20, 0, 0x10, 0, 0x20]

/-- A 1x1 document whose first channel holds the pairs `(0x81, 7)`, `(0x82, 7)`, `(0, 7)`
and whose other channels are empty. -/
def skew_doc : List byte :=
  header_bytes 1 0 1 0 ++ [0, 6, 0, 0, 0, 0] ++ [0x81, 7, 0x82, 7, 0, 7]

/-- A 1x1 document whose three channels each hold the single pair `(0x81, 7)`. -/
def run128_doc : List byte :=
  header_bytes 1 0 1 0 ++ [0, 2, 0, 2, 0, 2] ++ [0x81, 7, 0x81, 7, 0x81, 7]

/-- A document whose first channel starts with the control byte `0x80`. -/
def x80_doc : List byte :=
  header_bytes 1 0 1 0 ++ [0, 2, 0, 0, 0, 0] ++ [0x80, 0x10]

theorem main_of_accepted (env : Env) (file : List byte) (h : accepted env file) :
    main env file =
      match decoded env file with
      | .error _ => cleanup env (decode_events env file)
      | .ok s =>
        if lengths_diverge s.out_channel_len then cleanup env (decode_events env file)
        else { status := 0, stdout := write_ppm (width env file) (height env file) s.image,
               events := decode_events env file } := by
  obtain ⟨h1, h2, h3, h4, h5⟩ := h
  have h1' : ¬ file.length < PSS_HEAD := by omega
  have hr : ¬ (read file 0 env.heap_head PSS_HEAD).1 < 1 := by
    simp only [read, PSS_HEAD] at *; omega
  unfold main
  simp only [h1', hr, if_false]
  have h2' : signature_mismatch (read file 0 env.heap_head PSS_HEAD).2 = false := h2
  simp only [h2', Bool.false_eq_true, if_false]
  unfold main_dims
  have h34 : ¬ (uswap16 ((read file 0 env.heap_head PSS_HEAD).2 8)
        ((read file 0 env.heap_head PSS_HEAD).2 9) > MAX_RES ∨
      uswap16 ((read file 0 env.heap_head PSS_HEAD).2 12)
        ((read file 0 env.heap_head PSS_HEAD).2 13) > MAX_RES) := by
    unfold width header at h3
    unfold height header at h4
    omega
  simp only [h34, if_false]
  unfold main_table
  have h5' : ¬ (read file PSS_HEAD env.heap_table
      ((uswap16 ((read file 0 env.heap_head PSS_HEAD).2 12)
        ((read file 0 env.heap_head PSS_HEAD).2 13) * 2 % 4294967296 * 3) % 4294967296)).1 = 0 := h5
  simp only [h5', if_false]
  rfl

theorem u_append_array (c : ch_buf) (v : byte) : (u_append c v).array = c.array ++ [v] := rfl

theorem u_append_size (c : ch_buf) (v : byte) :
    (u_append c v).size = (c.size + 1) % 4294967296 := rfl

theorem iterate_append_array (v : byte) (k : Nat) (c : ch_buf) :
    ((fun c => u_append c v)^[k] c).array = c.array ++ List.replicate k v := by
  induction k generalizing c with
  | zero => simp
  | succ k ih =>
    rw [Function.iterate_succ_apply, ih, u_append_array, List.replicate_succ]
    simp

theorem iterate_append_size (v : byte) (k : Nat) (c : ch_buf) (hc : c.size < 4294967296) :
    ((fun c => u_append c v)^[k] c).size = (c.size + k) % 4294967296 := by
  induction k generalizing c with
  | zero => simp; omega
  | succ k ih =>
    rw [Function.iterate_succ_apply, ih _ (by rw [u_append_size]; omega), u_append_size]
    omega

theorem int_to_char_of_small (x : Int) (h1 : -128 ≤ x) (h2 : x ≤ 127) : int_to_char x = x := by
  unfold int_to_char; omega

/-- The inner `for` loop with a count `n` in `[0,127]` is `n - r` calls of `u_append`. -/
theorem repeat_loop_eq (v : byte) (n : Nat) (hn : n ≤ 127) :
    ∀ (fuel r : Nat) (c : ch_buf), r ≤ n → n - r ≤ fuel →
      repeat_loop v (n : Int) fuel (r : Int) c = (fun c => u_append c v)^[n - r] c := by
  intro fuel
  induction fuel with
  | zero =>
    intro r c hr hf
    have : n - r = 0 := by omega
    simp [repeat_loop, this]
  | succ fuel ih =>
    intro r c hr hf
    unfold repeat_loop
    by_cases hlt : (r : Int) < (n : Int)
    · rw [if_pos hlt]
      have hr1 : r + 1 ≤ n := by omega
      have hc : int_to_char ((r : Int) + 1) = ((r + 1 : Nat) : Int) := by
        rw [int_to_char_of_small] <;> push_cast <;> omega
      rw [hc, ih (r + 1) _ hr1 (by omega)]
      have : n - r = (n - (r + 1)) + 1 := by omega
      rw [this, Function.iterate_succ_apply]
    · rw [if_neg hlt]
      have : n - r = 0 := by omega
      simp [this]

/-- With a negative count the inner `for` loop does not run. -/
theorem repeat_loop_neg (v : byte) (n : Int) (hn : n ≤ 0) (fuel : Nat) (c : ch_buf) :
    repeat_loop v n fuel 0 c = c := by
  cases fuel with
  | zero => rfl
  | succ fuel =>
    unfold repeat_loop
    rw [if_neg (by omega)]

theorem to_char_of_lt (b : byte) (h : b.val < 128) : to_char b = (b.val : Int) := by
  unfold to_char; rw [if_pos h]

theorem to_char_of_ge (b : byte) (h : 128 ≤ b.val) : to_char b = (b.val : Int) - 256 := by
  unfold to_char; rw [if_neg (by omega)]

theorem to_char_bounds (b : byte) : -128 ≤ to_char b ∧ to_char b ≤ 127 := by
  have := b.isLt
  unfold to_char; split <;> omega

theorem to_char_injective (a b : byte) (h : to_char a = to_char b) : a = b := by
  have ha := a.isLt
  have hb := b.isLt
  apply Fin.ext
  unfold to_char at h
  split at h <;> split at h <;> omega

/-! ## One control/value pair -/

theorem rle_pair_literal (comp_img : Nat → byte) (ch : Nat) (s : rle_state)
    (h : to_char (comp_img ((s.offset + s.offset_local) % 4294967296)) = 0) :
    rle_pair comp_img ch s = .ok { note_pair comp_img ch s with
      repeat_c := (s.repeat_c + 1) % 4294967296,
      image := Function.update s.image ch
        (u_append (s.image ch) (comp_img ((s.offset + s.offset_local + 1) % 4294967296))),
      offset_local := (s.offset_local + 2) % 4294967296 } := by
  unfold rle_pair note_pair
  simp only [h, if_true]

theorem rle_pair_repeat (comp_img : Nat → byte) (ch : Nat) (s : rle_state)
    (h1 : -127 ≤ to_char (comp_img ((s.offset + s.offset_local) % 4294967296)))
    (h2 : to_char (comp_img ((s.offset + s.offset_local) % 4294967296)) ≤ -1) :
    rle_pair comp_img ch s = .ok { note_pair comp_img ch s with
      repeat_c := int_to_uint ((s.repeat_c : Int) + int_to_char
        (to_char (comp_img ((s.offset + s.offset_local) % 4294967296)) * -1 + 1)),
      image := Function.update s.image ch
        (repeat_loop (comp_img ((s.offset + s.offset_local + 1) % 4294967296))
          (int_to_char (to_char (comp_img ((s.offset + s.offset_local) % 4294967296)) * -1 + 1))
          128 0 (s.image ch)),
      offset_local := (s.offset_local + 2) % 4294967296 } := by
  unfold rle_pair note_pair
  have h0 : ¬ to_char (comp_img ((s.offset + s.offset_local) % 4294967296)) = 0 := by omega
  have h12 : to_char (comp_img ((s.offset + s.offset_local) % 4294967296)) ≥ -127 ∧
      to_char (comp_img ((s.offset + s.offset_local) % 4294967296)) ≤ -1 := ⟨h1, h2⟩
  simp only [h0, h12, if_true, if_false, and_self]

theorem rle_pair_invalid (comp_img : Nat → byte) (ch : Nat) (s : rle_state)
    (h : to_char (comp_img ((s.offset + s.offset_local) % 4294967296)) < -127 ∨
      0 < to_char (comp_img ((s.offset + s.offset_local) % 4294967296))) :
    rle_pair comp_img ch s = .error (note_pair comp_img ch s) := by
  unfold rle_pair note_pair
  have h0 : ¬ to_char (comp_img ((s.offset + s.offset_local) % 4294967296)) = 0 := by omega
  have h12 : ¬ (to_char (comp_img ((s.offset + s.offset_local) % 4294967296)) ≥ -127 ∧
      to_char (comp_img ((s.offset + s.offset_local) % 4294967296)) ≤ -1) := by omega
  simp only [h0, h12, if_false, ite_self]

/-! ## Sixteen bit byte swaps -/

theorem or_mod_two_pow (a b n : Nat) : (a ||| b) % 2 ^ n = a % 2 ^ n ||| b % 2 ^ n := by
  apply Nat.eq_of_testBit_eq
  intro i
  simp only [Nat.testBit_mod_two_pow, Nat.testBit_or]
  cases decide (i < n) <;> simp

theorem shiftLeft_or (a b n : Nat) : a <<< n ||| b <<< n = (a ||| b) <<< n := by
  apply Nat.eq_of_testBit_eq
  intro i
  simp only [Nat.testBit_shiftLeft, Nat.testBit_or]
  cases decide (i ≥ n) <;> simp

theorem or_255 (a : byte) : a.val ||| 255 = 255 := by
  revert a; decide!

/-- `a * 256 + b` for bytes `a`, `b` is `a * 256 ||| b`. -/
theorem mul256_or (a b : Nat) (hb : b < 256) : 256 * a ||| b = 256 * a + b :=
  (Nat.mul_add_lt_is_or (show b < 2 ^ 8 from hb) a).symm

/-- The expression `(raw>>8) | (raw<<8)` cut to 16 bits exchanges the two bytes of `raw`. -/
theorem swap16_eq (a b : Nat) (ha : a < 256) (hb : b < 256) :
    (((a + 256 * b) >>> 8) ||| ((a + 256 * b) <<< 8)) % 65536 = 256 * a + b := by
  have h1 : (a + 256 * b) >>> 8 = b := by
    rw [Nat.shiftRight_eq_div_pow]; omega
  have h2 : ((a + 256 * b) <<< 8) % 2 ^ 16 = 256 * a := by
    rw [Nat.shiftLeft_eq]; omega
  rw [h1, show (65536 : Nat) = 2 ^ 16 from rfl, or_mod_two_pow, h2, Nat.or_comm,
    show b % 2 ^ 16 = b by omega]
  exact mul256_or a b hb

theorem swap_ucomb16 (p0 p1 : byte) :
    ((ucomb16 p0 p1 >>> 8) ||| (ucomb16 p0 p1 <<< 8)) % 65536 = 256 * p0.val + p1.val :=
  swap16_eq p0.val p1.val p0.isLt p1.isLt

theorem int_to_uint_to_char (b : byte) :
    int_to_uint (to_char b) = if b.val < 128 then b.val else b.val + 4294967040 := by
  have := b.isLt
  unfold int_to_uint to_char
  split <;> omega

/-- What `uswap16` returns: the little-endian value of the two bytes when the second byte
is below `0x80`, and `0xFF` under the second byte otherwise. -/
theorem uswap16_value (p0 p1 : byte) :
    uswap16 p0 p1 = if p1.val < 128 then p0.val + 256 * p1.val else 255 + 256 * p1.val := by
  have h0 := p0.isLt
  have h1 := p1.isLt
  have hA : (int_to_uint (to_char p0) <<< 8 % 4294967296) % 2 ^ 16 = 256 * p0.val := by
    rw [int_to_uint_to_char, Nat.shiftLeft_eq]
    split <;> omega
  have hraw : (int_to_uint (to_char p0) <<< 8 % 4294967296 ||| int_to_uint (to_char p1)) % 65536
      = if p1.val < 128 then p1.val + 256 * p0.val else p1.val + 256 * 255 := by
    rw [show (65536 : Nat) = 2 ^ 16 from rfl, or_mod_two_pow, hA, int_to_uint_to_char]
    by_cases hp : p1.val < 128
    · rw [if_pos hp, if_pos hp, show p1.val % 2 ^ 16 = p1.val by omega, mul256_or _ _ h1]
      omega
    · rw [if_neg hp, if_neg hp,
        show (p1.val + 4294967040) % 2 ^ 16 = 256 * 255 + p1.val by omega,
        ← mul256_or 255 _ h1, ← Nat.or_assoc,
        show 256 * p0.val = p0.val <<< 8 by rw [Nat.shiftLeft_eq]; omega,
        show 256 * 255 = 255 <<< 8 by rfl, shiftLeft_or, or_255,
        show (255 <<< 8 : Nat) = 256 * 255 by rfl, mul256_or 255 _ h1]
      omega
  show (((int_to_uint (to_char p0) <<< 8 % 4294967296 ||| int_to_uint (to_char p1)) % 65536) >>> 8
      ||| ((int_to_uint (to_char p0) <<< 8 % 4294967296 ||| int_to_uint (to_char p1)) % 65536) <<< 8)
      % 65536 = _
  rw [hraw]
  by_cases hp : p1.val < 128
  · rw [if_pos hp, if_pos hp, swap16_eq p1.val p0.val h1 h0]
    omega
  · rw [if_neg hp, if_neg hp, swap16_eq p1.val 255 h1 (by omega)]
    omega

/-! ## Which pairs the decode loop accepts -/

theorem rle_pair_ok {comp_img : Nat → byte} {ch : Nat} {s s' : rle_state}
    (h : rle_pair comp_img ch s = .ok s') :
    valid_control (to_char (comp_img ((s.offset + s.offset_local) % 4294967296))) ∧
      s'.offset = s.offset ∧ s'.offset_local = (s.offset_local + 2) % 4294967296 ∧
      s'.reads = (note_pair comp_img ch s).reads ∧ s'.pairs = (note_pair comp_img ch s).pairs ∧
      s'.starts = s.starts ∧ s'.out_channel_len = s.out_channel_len := by
  by_cases h0 : to_char (comp_img ((s.offset + s.offset_local) % 4294967296)) = 0
  · rw [rle_pair_literal comp_img ch s h0] at h
    cases h
    exact ⟨by unfold valid_control; omega, rfl, rfl, rfl, rfl, rfl, rfl⟩
  · by_cases h12 : -127 ≤ to_char (comp_img ((s.offset + s.offset_local) % 4294967296)) ∧
        to_char (comp_img ((s.offset + s.offset_local) % 4294967296)) ≤ -1
    · rw [rle_pair_repeat comp_img ch s h12.1 h12.2] at h
      cases h
      exact ⟨by unfold valid_control; omega, rfl, rfl, rfl, rfl, rfl, rfl⟩
    · rw [rle_pair_invalid comp_img ch s (by omega)] at h
      cases h

theorem rle_pair_error {comp_img : Nat → byte} {ch : Nat} {s s' : rle_state}
    (h : rle_pair comp_img ch s = .error s') :
    ¬ valid_control (to_char (comp_img ((s.offset + s.offset_local) % 4294967296))) ∧
      s' = note_pair comp_img ch s := by
  by_cases h0 : to_char (comp_img ((s.offset + s.offset_local) % 4294967296)) = 0
  · rw [rle_pair_literal comp_img ch s h0] at h
    cases h
  · by_cases h12 : -127 ≤ to_char (comp_img ((s.offset + s.offset_local) % 4294967296)) ∧
        to_char (comp_img ((s.offset + s.offset_local) % 4294967296)) ≤ -1
    · rw [rle_pair_repeat comp_img ch s h12.1 h12.2] at h
      cases h
    · rw [rle_pair_invalid comp_img ch s (by omega)] at h
      cases h
      exact ⟨by unfold valid_control; omega, rfl⟩

theorem note_pair_pairs_mem (comp_img : Nat → byte) (ch : Nat) (s : rle_state) (k : Nat)
    (p : Int × byte) :
    p ∈ (note_pair comp_img ch s).pairs k ↔
      p ∈ s.pairs k ∨ (k = ch ∧
        p = (to_char (comp_img ((s.offset + s.offset_local) % 4294967296)),
             comp_img ((s.offset + s.offset_local + 1) % 4294967296))) := by
  unfold note_pair
  by_cases hk : k = ch
  · subst hk; simp
  · simp [Function.update_noteq hk, hk]

theorem rle_pairs_ok_valid (comp_img : Nat → byte) (size ch : Nat) :
    ∀ (fuel : Nat) (s s' : rle_state), rle_pairs comp_img size ch fuel s = .ok s' →
      all_valid s → all_valid s' := by
  intro fuel
  induction fuel with
  | zero => intro s s' h hv; cases h; exact hv
  | succ fuel ih =>
    intro s s' h hv
    unfold rle_pairs at h
    split at h
    · split at h
      · rename_i s1 h1
        refine ih _ _ h ?_
        obtain ⟨hc, _, _, _, hp, _, _⟩ := rle_pair_ok h1
        intro k p hmem
        rw [hp, note_pair_pairs_mem] at hmem
        rcases hmem with hmem | ⟨_, rfl⟩
        · exact hv k p hmem
        · exact hc
      · cases h
    · cases h; exact hv

theorem rle_pairs_error_invalid (comp_img : Nat → byte) (size ch : Nat) :
    ∀ (fuel : Nat) (s s' : rle_state), rle_pairs comp_img size ch fuel s = .error s' →
      some_invalid s' := by
  intro fuel
  induction fuel with
  | zero => intro s s' h; cases h
  | succ fuel ih =>
    intro s s' h
    unfold rle_pairs at h
    split at h
    · split at h
      · exact ih _ _ h
      · rename_i s1 h1
        cases h
        obtain ⟨hc, rfl⟩ := rle_pair_error h1
        exact ⟨ch, _, (note_pair_pairs_mem comp_img ch s ch _).2 (Or.inr ⟨rfl, rfl⟩), hc⟩
    · cases h

theorem rle_channel_ok_valid {comp_img : Nat → byte} {sizes : Nat → Nat} {ch : Nat}
    {s s' : rle_state} (h : rle_channel comp_img sizes ch s = .ok s') (hv : all_valid s) :
    all_valid s' := by
  unfold rle_channel at h
  dsimp only at h
  split at h
  · cases h
  · rename_i s1 h1
    cases h
    have hv1 : all_valid s1 := rle_pairs_ok_valid comp_img _ ch _ _ s1 h1 (fun k p hp => hv k p hp)
    exact fun k p hp => hv1 k p hp

theorem rle_channel_error_invalid {comp_img : Nat → byte} {sizes : Nat → Nat} {ch : Nat}
    {s s' : rle_state} (h : rle_channel comp_img sizes ch s = .error s') :
    some_invalid s' := by
  unfold rle_channel at h
  dsimp only at h
  split at h
  · rename_i s1 h1
    cases h
    exact rle_pairs_error_invalid comp_img _ ch _ _ _ h1
  · cases h

theorem all_valid_init : all_valid rle_init := by
  intro k p hp
  simp [rle_init] at hp

/-- The decode loop ends normally exactly when every consumed control byte is accepted. -/
theorem rle_decode_ok_iff (comp_img : Nat → byte) (sizes : Nat → Nat) :
    (∃ s, rle_decode comp_img sizes = .ok s) ↔
      all_valid (final_state (rle_decode comp_img sizes)) := by
  unfold rle_decode
  cases h0 : rle_channel comp_img sizes 0 rle_init with
  | error e0 =>
    have hi := rle_channel_error_invalid h0
    dsimp only [final_state]
    constructor
    · rintro ⟨s, hs⟩; cases hs
    · intro hv
      obtain ⟨k, p, hp, hn⟩ := hi
      exact absurd (hv k p hp) hn
  | ok s0 =>
    have v0 := rle_channel_ok_valid h0 all_valid_init
    dsimp only
    cases h1 : rle_channel comp_img sizes 1 s0 with
    | error e1 =>
      have hi := rle_channel_error_invalid h1
      dsimp only [final_state]
      constructor
      · rintro ⟨s, hs⟩; cases hs
      · intro hv
        obtain ⟨k, p, hp, hn⟩ := hi
        exact absurd (hv k p hp) hn
    | ok s1 =>
      have v1 := rle_channel_ok_valid h1 v0
      dsimp only
      cases h2 : rle_channel comp_img sizes 2 s1 with
      | error e2 =>
        have hi := rle_channel_error_invalid h2
        dsimp only [final_state]
        constructor
        · rintro ⟨s, hs⟩; cases hs
        · intro hv
          obtain ⟨k, p, hp, hn⟩ := hi
          exact absurd (hv k p hp) hn
      | ok s2 =>
        dsimp only [final_state]
        exact ⟨fun _ => rle_channel_ok_valid h2 v1, fun _ => ⟨s2, rfl⟩⟩

/-! ## Stages of `main` -/

theorem header_eq (env : Env) (file : List byte) (h : PSS_HEAD ≤ file.length) (i : Nat)
    (hi : i < PSS_HEAD) : header env file i = file.getD i 0 := by
  unfold header read
  simp only [PSS_HEAD] at *
  have : i < min 40 (file.length - 0) := by omega
  simp only [this, if_true, Nat.zero_add]

theorem signature_mismatch_iff (buf : Nat → byte) :
    signature_mismatch buf = true ↔ ∃ i, i < 4 ∧ buf i ≠ fsig i := by
  unfold signature_mismatch
  simp only [List.any_eq_true, List.mem_range, bne_iff_ne, ne_eq]
  constructor
  · rintro ⟨i, hi, hne⟩
    exact ⟨i, hi, fun h => hne (by rw [h])⟩
  · rintro ⟨i, hi, hne⟩
    exact ⟨i, hi, fun h => hne (to_char_injective _ _ h).symm⟩

theorem no_pixel_in_placeholder (env : Env) (r g b : Int) :
    OutLine.pixel r g b ∉ print_placeholder env := by
  unfold print_placeholder
  simp

theorem u_getat_bounds (c : ch_buf) (i : Nat) :
    -1 ≤ u_getat c i ∧ u_getat c i ≤ 255 ∧ (0 ≤ u_getat c i ↔ i < c.size) := by
  unfold u_getat
  by_cases h : i ≥ c.size
  · rw [if_pos h]; omega
  · rw [if_neg h]
    have := (c.array.getD i 0).isLt
    omega

/-! ## The length table -/

theorem table_entries_sum (buf : Nat → byte) (h ch : Nat) :
    ∀ (fuel j : Nat) (t : table_state), j ≤ h → h - j ≤ fuel →
      2 * h + t.offset < 4294967296 →
      t.rle_total_encoded_size + 65535 * (h - j) < 4294967296 →
      t.rle_channel_size ch + 65535 * (h - j) < 4294967296 →
      (table_entries buf (2 * h) ch fuel (2 * j) t).offset = t.offset ∧
      (table_entries buf (2 * h) ch fuel (2 * j) t).rle_total_encoded_size =
        t.rle_total_encoded_size + ∑ r ∈ Finset.Ico j h,
          (256 * (buf (t.offset + 2 * r)).val + (buf (t.offset + 2 * r + 1)).val) ∧
      (table_entries buf (2 * h) ch fuel (2 * j) t).rle_channel_size ch =
        t.rle_channel_size ch + ∑ r ∈ Finset.Ico j h,
          (256 * (buf (t.offset + 2 * r)).val + (buf (t.offset + 2 * r + 1)).val) ∧
      ∀ k, k ≠ ch →
        (table_entries buf (2 * h) ch fuel (2 * j) t).rle_channel_size k =
          t.rle_channel_size k := by
  intro fuel
  induction fuel with
  | zero =>
    intro j t hj hf _ _ _
    have : j = h := by omega
    subst this
    simp [table_entries]
  | succ fuel ih =>
    intro j t hj hf hoff htot hsz
    unfold table_entries
    by_cases hlt : 2 * j < 2 * h
    · rw [if_pos hlt]
      dsimp only
      have hjh : j < h := by omega
      have hptr : (2 * j + t.offset) % 4294967296 = t.offset + 2 * j := by omega
      have hi : (2 * j + 2) % 4294967296 = 2 * (j + 1) := by omega
      have b0 := (buf (t.offset + 2 * j)).isLt
      have b1 := (buf (t.offset + 2 * j + 1)).isLt
      rw [hptr, swap_ucomb16, hi]
      have hstep := ih (j + 1)
        { t with
          rle_total_encoded_size :=
            (t.rle_total_encoded_size +
              (256 * (buf (t.offset + 2 * j)).val + (buf (t.offset + 2 * j + 1)).val))
              % 4294967296,
          rle_channel_size :=
            Function.update t.rle_channel_size ch
              ((t.rle_channel_size ch +
                (256 * (buf (t.offset + 2 * j)).val + (buf (t.offset + 2 * j + 1)).val))
                % 4294967296) }
        (by omega) (by omega) hoff
        (by dsimp only; omega)
        (by dsimp only; rw [Function.update_same]; omega)
      dsimp only at hstep
      rw [Function.update_same] at hstep
      obtain ⟨e1, e2, e3, e4⟩ := hstep
      rw [Finset.sum_eq_sum_Ico_succ_bot hjh]
      refine ⟨e1, ?_, ?_, ?_⟩
      · rw [e2]; omega
      · rw [e3]; omega
      · intro k hk
        rw [e4 k hk, Function.update_noteq hk]
    · rw [if_neg hlt]
      have : j = h := by omega
      subst this
      simp

theorem table_channel_sum (buf : Nat → byte) (h ch : Nat) (t : table_state)
    (hoff : 2 * h + t.offset < 4294967296)
    (htot : t.rle_total_encoded_size + 65535 * h < 4294967296)
    (hsz : t.rle_channel_size ch + 65535 * h < 4294967296) :
    (table_channel buf (2 * h) ch t).offset = t.offset + 2 * h ∧
      (table_channel buf (2 * h) ch t).rle_total_encoded_size =
        t.rle_total_encoded_size + ∑ r ∈ Finset.range h,
          (256 * (buf (t.offset + 2 * r)).val + (buf (t.offset + 2 * r + 1)).val) ∧
      (table_channel buf (2 * h) ch t).rle_channel_size ch =
        t.rle_channel_size ch + ∑ r ∈ Finset.range h,
          (256 * (buf (t.offset + 2 * r)).val + (buf (t.offset + 2 * r + 1)).val) ∧
      ∀ k, k ≠ ch → (table_channel buf (2 * h) ch t).rle_channel_size k = t.rle_channel_size k := by
  have hs := table_entries_sum buf h ch (2 * h) 0 t (by omega) (by omega) hoff
    (by simpa using htot) (by simpa using hsz)
  rw [Nat.mul_zero, Nat.Ico_zero_eq_range] at hs
  obtain ⟨e1, e2, e3, e4⟩ := hs
  unfold table_channel
  dsimp only
  refine ⟨?_, e2, e3, e4⟩
  rw [e1]; omega

theorem entry_sum_le (buf : Nat → byte) (off h : Nat) :
    ∑ r ∈ Finset.range h,
      (256 * (buf (off + 2 * r)).val + (buf (off + 2 * r + 1)).val) ≤ 65535 * h := by
  induction h with
  | zero => simp
  | succ h ih =>
    rw [Finset.sum_range_succ]
    have b0 := (buf (off + 2 * h)).isLt
    have b1 := (buf (off + 2 * h + 1)).isLt
    omega

/-- The totals after the three channel blocks of a table of height `h ≤ MAX_RES`. -/
theorem parse_table_sums (buf : Nat → byte) (h : Nat) (hh : h ≤ MAX_RES) :
    (∀ c, c < 3 → (parse_table buf (2 * h)).rle_channel_size c =
      ∑ r ∈ Finset.range h, table_entry buf h c r) ∧
    (parse_table buf (2 * h)).rle_total_encoded_size =
      (parse_table buf (2 * h)).rle_channel_size 0 + (parse_table buf (2 * h)).rle_channel_size 1
        + (parse_table buf (2 * h)).rle_channel_size 2 := by
  unfold MAX_RES at hh
  unfold parse_table
  dsimp only
  obtain ⟨a1, a2, a3, a4⟩ := table_channel_sum buf h 0
    { rle_total_encoded_size := 0, rle_channel_size := fun _ => 0, offset := 0 }
    (by dsimp only; omega) (by dsimp only; omega) (by dsimp only; omega)
  generalize table_channel buf (2 * h) 0
    { rle_total_encoded_size := 0, rle_channel_size := fun _ => 0, offset := 0 } = t0 at *
  dsimp only at a1 a2 a3 a4
  have l0 := entry_sum_le buf 0 h
  obtain ⟨b1, b2, b3, b4⟩ := table_channel_sum buf h 1 t0
    (by omega) (by omega) (by rw [a4 1 (by decide)]; omega)
  generalize table_channel buf (2 * h) 1 t0 = t1 at *
  have l1 := entry_sum_le buf (t0.offset) h
  obtain ⟨c1, c2, c3, c4⟩ := table_channel_sum buf h 2 t1
    (by omega) (by omega) (by rw [b4 2 (by decide), a4 2 (by decide)]; omega)
  generalize table_channel buf (2 * h) 2 t1 = t2 at *
  have e0 : t2.rle_channel_size 0 = ∑ r ∈ Finset.range h, table_entry buf h 0 r := by
    rw [c4 0 (by decide), b4 0 (by decide), a3]
    simp [table_entry]
  have e1 : t2.rle_channel_size 1 = ∑ r ∈ Finset.range h, table_entry buf h 1 r := by
    rw [c4 1 (by decide), b3, a4 1 (by decide), a1]
    simp [table_entry]
  have e2 : t2.rle_channel_size 2 = ∑ r ∈ Finset.range h, table_entry buf h 2 r := by
    rw [c3, b4 2 (by decide), a4 2 (by decide), b1, a1]
    simp only [table_entry, Nat.zero_add]
    apply Finset.sum_congr rfl
    intro r _
    rw [show 2 * h + 2 * h + 2 * r = 2 * h * 2 + 2 * r by omega]
  constructor
  · intro c hc
    interval_cases c
    · exact e0
    · exact e1
    · exact e2
  · rw [c2, b2, a2, c4 0 (by decide), b4 0 (by decide), a3, c4 1 (by decide), b3,
      a4 1 (by decide), c3, b4 2 (by decide), a4 2 (by decide)]
    omega

/-! ## Which payload bytes each channel reads -/

theorem note_pair_reads_mem (comp_img : Nat → byte) (ch : Nat) (s : rle_state) (k i : Nat) :
    i ∈ (note_pair comp_img ch s).reads k ↔
      i ∈ s.reads k ∨ (k = ch ∧ (i = (s.offset + s.offset_local + 1) % 4294967296 ∨
        i = (s.offset + s.offset_local) % 4294967296)) := by
  unfold note_pair
  by_cases hk : k = ch
  · subst hk; simp
  · simp [Function.update_noteq hk, hk]

theorem rle_pairs_reads (comp_img : Nat → byte) (size ch : Nat) :
    ∀ (fuel j : Nat) (s s' : rle_state), s.offset_local = 2 * j → 2 * j ≤ even_up size →
      even_up size - 2 * j ≤ 2 * fuel → s.offset + even_up size < 4294967296 →
      rle_pairs comp_img size ch fuel s = .ok s' →
      s'.offset_local = even_up size ∧ s'.offset = s.offset ∧ s'.starts = s.starts ∧
      (∀ k i, i ∈ s'.reads k ↔
        i ∈ s.reads k ∨ (k = ch ∧ s.offset + 2 * j ≤ i ∧ i < s.offset + even_up size)) := by
  intro fuel
  induction fuel with
  | zero =>
    intro j s s' hol hj hf _ h
    cases h
    refine ⟨by omega, rfl, rfl, ?_⟩
    intro k i
    constructor
    · exact fun hi => Or.inl hi
    · rintro (hi | ⟨_, h1, h2⟩)
      · exact hi
      · omega
  | succ fuel ih =>
    intro j s s' hol hj hf hoff h
    unfold rle_pairs at h
    unfold even_up at *
    by_cases hlt : s.offset_local < size
    · rw [if_pos hlt] at h
      cases h1 : rle_pair comp_img ch s with
      | error e => rw [h1] at h; cases h
      | ok s1 =>
        rw [h1] at h
        dsimp only at h
        obtain ⟨_, q1, q2, q3, _, q5, _⟩ := rle_pair_ok h1
        have hol1 : s1.offset_local = 2 * (j + 1) := by rw [q2, hol]; omega
        obtain ⟨r1, r2, r3, r4⟩ := ih (j + 1) s1 s' hol1 (by omega) (by omega)
          (by rw [q1]; exact hoff) h
        refine ⟨r1, by rw [r2, q1], by rw [r3, q5], ?_⟩
        intro k i
        rw [r4, q3, note_pair_reads_mem, q1, hol]
        have e1 : (s.offset + 2 * j + 1) % 4294967296 = s.offset + 2 * j + 1 := by omega
        have e0 : (s.offset + 2 * j) % 4294967296 = s.offset + 2 * j := by omega
        rw [e1, e0]
        constructor
        · rintro ((hi | ⟨hk, hi | hi⟩) | ⟨hk, hi1, hi2⟩)
          · exact Or.inl hi
          · exact Or.inr ⟨hk, by omega, by omega⟩
          · exact Or.inr ⟨hk, by omega, by omega⟩
          · exact Or.inr ⟨hk, by omega, by omega⟩
        · rintro (hi | ⟨hk, hi1, hi2⟩)
          · exact Or.inl (Or.inl hi)
          · by_cases hi3 : i < s.offset + 2 * j + 2
            · exact Or.inl (Or.inr ⟨hk, by omega⟩)
            · exact Or.inr ⟨hk, by omega, hi2⟩
    · rw [if_neg hlt] at h
      cases h
      refine ⟨by omega, rfl, rfl, ?_⟩
      intro k i
      constructor
      · exact fun hi => Or.inl hi
      · rintro (hi | ⟨_, h1, h2⟩)
        · exact hi
        · omega

theorem even_up_le (n : Nat) : even_up n ≤ n + 1 ∧ even_up n ≤ 2 * n := by
  unfold even_up; omega

theorem rle_channel_reads {comp_img : Nat → byte} {sizes : Nat → Nat} {ch : Nat}
    {s s' : rle_state} (hoff : s.offset + even_up (sizes ch) < 4294967296)
    (h : rle_channel comp_img sizes ch s = .ok s') :
    s'.offset = s.offset + even_up (sizes ch) ∧
      s'.starts = Function.update s.starts ch s.offset ∧
      (∀ k i, i ∈ s'.reads k ↔
        i ∈ s.reads k ∨ (k = ch ∧ s.offset ≤ i ∧ i < s.offset + even_up (sizes ch))) := by
  unfold rle_channel at h
  dsimp only at h
  split at h
  · cases h
  · rename_i s1 h1
    cases h
    obtain ⟨r1, r2, r3, r4⟩ := rle_pairs_reads comp_img (sizes ch) ch (sizes ch) 0
      { s with offset_local := 0, starts := Function.update s.starts ch s.offset } s1 rfl
      (by omega) (by have := even_up_le (sizes ch); omega) hoff h1
    dsimp only at r2 r3 r4 ⊢
    refine ⟨by rw [r1, r2]; omega, r3, ?_⟩
    intro k i
    rw [r4]
    simp

/-- The fuel `size` handed to `rle_pairs` is never used up: more fuel gives the same outcome. -/
theorem rle_pairs_fuel (comp_img : Nat → byte) (size ch : Nat)
    (hsize : even_up size < 4294967296) :
    ∀ (fuel j : Nat) (s : rle_state), s.offset_local = 2 * j → 2 * j ≤ even_up size →
      even_up size - 2 * j ≤ 2 * fuel →
      ∀ extra, rle_pairs comp_img size ch (fuel + extra) s = rle_pairs comp_img size ch fuel s := by
  intro fuel
  induction fuel with
  | zero =>
    intro j s hol hj hf extra
    have hge : ¬ s.offset_local < size := by unfold even_up at *; omega
    cases extra with
    | zero => rfl
    | succ extra =>
      rw [Nat.zero_add]
      unfold rle_pairs
      rw [if_neg hge]
  | succ fuel ih =>
    intro j s hol hj hf extra
    rw [show fuel + 1 + extra = (fuel + extra) + 1 by omega]
    unfold rle_pairs
    by_cases hlt : s.offset_local < size
    · rw [if_pos hlt, if_pos hlt]
      cases h1 : rle_pair comp_img ch s with
      | error e => rfl
      | ok s1 =>
        dsimp only
        obtain ⟨_, _, q2, _⟩ := rle_pair_ok h1
        have hol1 : s1.offset_local = 2 * (j + 1) := by
          rw [q2, hol]; unfold even_up at *; omega
        exact ih (j + 1) s1 hol1 (by unfold even_up at *; omega) (by omega) extra
    · rw [if_neg hlt, if_neg hlt]

/-! ## The claims -/

/-- C1 (on the code): a pair whose control byte `c` lies in `[-127,-1]` is accepted and
leaves every other channel alone; it appends `(-c)+1` copies of the value when
`c` is in `[-126,-1]`, but no copy at all when `c = -127`, where the count 128 is
stored back into the `char` and becomes `-128`. -/
theorem repeat_run_copies (comp_img : Nat → byte) (ch : Nat) (s : rle_state)
    (h1 : -127 ≤ to_char (comp_img ((s.offset + s.offset_local) % 4294967296)))
    (h2 : to_char (comp_img ((s.offset + s.offset_local) % 4294967296)) ≤ -1) :
    ∃ s', rle_pair comp_img ch s = .ok s' ∧
      (∀ k, k ≠ ch → s'.image k = s.image k) ∧
      (to_char (comp_img ((s.offset + s.offset_local) % 4294967296)) ≠ -127 →
        (s'.image ch).array = (s.image ch).array ++ List.replicate
          (-(to_char (comp_img ((s.offset + s.offset_local) % 4294967296))) + 1).toNat
          (comp_img ((s.offset + s.offset_local + 1) % 4294967296))) ∧
      (to_char (comp_img ((s.offset + s.offset_local) % 4294967296)) = -127 →
        s'.image ch = s.image ch ∧
        s'.repeat_c = (s.repeat_c + 4294967168) % 4294967296) := by
  refine ⟨_, rle_pair_repeat comp_img ch s h1 h2, ?_, ?_, ?_⟩
  · intro k hk
    simp [note_pair, Function.update_noteq hk]
  · intro hne
    generalize to_char (comp_img ((s.offset + s.offset_local) % 4294967296)) = c at *
    obtain ⟨n, hn⟩ : ∃ n : Nat, (n : Int) = -c + 1 := ⟨(-c + 1).toNat, by omega⟩
    have hn127 : n ≤ 127 := by omega
    have hc : int_to_char (c * -1 + 1) = (n : Int) := by
      rw [int_to_char_of_small] <;> omega
    have hz : (0 : Int) = ((0 : Nat) : Int) := rfl
    simp only [note_pair, Function.update_same, hc]
    rw [hz, repeat_loop_eq _ n hn127 128 0 _ (by omega) (by omega), iterate_append_array]
    rw [← hn]
    simp
  · intro heq
    rw [heq]
    have hc : int_to_char (-127 * -1 + 1) = -128 := by decide
    simp only [note_pair, Function.update_same, hc]
    refine ⟨repeat_loop_neg _ _ (by omega) _ _, ?_⟩
    unfold int_to_uint
    omega

/-- C1 at the failing input: the first pair of `wrap_stream` has the control byte `0x81`
(`-127`); decoded from the initial state it is accepted, leaves the container of channel 0
empty and sets the count to `2^32 - 128`. -/
theorem repeat_run_copies_witness :
    to_char (wrap_stream ((rle_init.offset + rle_init.offset_local) % 4294967296)) = -127 ∧
    ∃ s', rle_pair wrap_stream 0 rle_init = .ok s' ∧
      s'.image 0 = rle_init.image 0 ∧ (s'.image 0).array = [] ∧
      s'.repeat_c = 4294967168 := by
  obtain ⟨s', hok, _, _, h127⟩ :=
    repeat_run_copies wrap_stream 0 rle_init (by decide) (by decide)
  obtain ⟨himg, hcnt⟩ := h127 (by decide)
  exact ⟨by decide, s', hok, himg, by rw [himg]; rfl, by rw [hcnt]; rfl⟩

theorem ok_final_state {r : Except rle_state rle_state} (h : is_ok r = true) :
    r = .ok (final_state r) := by
  cases r with
  | ok s => rfl
  | error s => cases h

/-- C2: in a document that reaches the decode loop, a consumed control byte in `[1,127]`
makes `main` return 1 with nothing but the placeholder on standard output: no pixel line
of the decoded image is written. -/
theorem invalid_control_fails (env : Env) (file : List byte) (hacc : accepted env file)
    (ch : Nat) (p : Int × byte) (hp : p ∈ (final_state (decoded env file)).pairs ch)
    (h1 : 1 ≤ p.1) (h2 : p.1 ≤ 127) :
    (main env file).status = 1 ∧ (main env file).stdout = print_placeholder env ∧
      ∀ r g b, OutLine.pixel r g b ∉ (main env file).stdout := by
  have hnv : ¬ all_valid (final_state (decoded env file)) := by
    intro hv
    have := hv ch p hp
    unfold valid_control at this
    omega
  have hmain := main_of_accepted env file hacc
  cases hd : decoded env file with
  | ok s =>
    exact absurd ((rle_decode_ok_iff _ _).1 ⟨s, hd⟩) hnv
  | error e =>
    rw [hd] at hmain
    dsimp only at hmain
    rw [hmain]
    exact ⟨rfl, rfl, fun r g b => no_pixel_in_placeholder env r g b⟩

/-- C2 at `bad_doc`, whose first pair is `(0x05, 0x10)`. -/
theorem invalid_control_fails_witness :
    accepted env0 bad_doc ∧ ((5 : Int), (0x10 : byte)) ∈ (final_state (decoded env0 bad_doc)).pairs 0 ∧
      (main env0 bad_doc).status = 1 ∧ (main env0 bad_doc).stdout = print_placeholder env0 ∧
      ∀ r g b, OutLine.pixel r g b ∉ (main env0 bad_doc).stdout :=
  ⟨by decide!, by decide!,
    invalid_control_fails env0 bad_doc (by decide!) 0 (5, 0x10) (by decide!) (by decide) (by decide)⟩

/-- C8: for a height `h ≤ 10000` and a table block `T` of `3*h*2` bytes, the parser leaves in
`rle_channel_size[c]` the sum of the `h` big-endian 16 bit entries of channel `c`, entry `r`
being made of `T[2*h*c + 2*r]` and `T[2*h*c + 2*r + 1]`; `rle_total_encoded_size` is the sum
of the three channel sizes; every byte of `T` belongs to exactly one entry. -/
theorem length_table_sums (h : Nat) (T : List byte) (hh : h ≤ MAX_RES)
    (hT : T.length = 3 * h * 2) :
    (∀ c, c < 3 →
      (parse_table (fun i => T.getD i 0) ((h * 2) % 4294967296)).rle_channel_size c =
        ∑ r ∈ Finset.range h,
          (256 * (T.getD (2 * h * c + 2 * r) 0).val + (T.getD (2 * h * c + 2 * r + 1) 0).val)) ∧
    (parse_table (fun i => T.getD i 0) ((h * 2) % 4294967296)).rle_total_encoded_size =
      (parse_table (fun i => T.getD i 0) ((h * 2) % 4294967296)).rle_channel_size 0 +
      (parse_table (fun i => T.getD i 0) ((h * 2) % 4294967296)).rle_channel_size 1 +
      (parse_table (fun i => T.getD i 0) ((h * 2) % 4294967296)).rle_channel_size 2 ∧
    (∀ j, j < T.length → ∃! cr : Nat × Nat, cr.1 < 3 ∧ cr.2 < h ∧
      (j = 2 * h * cr.1 + 2 * cr.2 ∨ j = 2 * h * cr.1 + 2 * cr.2 + 1)) := by
  have hlen : (h * 2) % 4294967296 = 2 * h := by unfold MAX_RES at hh; omega
  rw [hlen]
  obtain ⟨p1, p2⟩ := parse_table_sums (fun i => T.getD i 0) h hh
  refine ⟨fun c hc => p1 c hc, p2, ?_⟩
  intro j hj
  rw [hT] at hj
  have key : ∀ c r : Nat, c < 3 → r < h →
      (j = 2 * h * c + 2 * r ∨ j = 2 * h * c + 2 * r + 1) →
      (c = 0 ∧ j < 2 * h ∧ r = j / 2) ∨ (c = 1 ∧ 2 * h ≤ j ∧ j < 4 * h ∧ r = (j - 2 * h) / 2) ∨
      (c = 2 ∧ 4 * h ≤ j ∧ r = (j - 4 * h) / 2) := by
    intro c r hc hr hjr
    interval_cases c
    · left; omega
    · right; left; omega
    · right; right; omega
  by_cases h0 : j < 2 * h
  · refine ⟨(0, j / 2), ⟨by dsimp only; omega, by dsimp only; omega, by dsimp only; omega⟩, ?_⟩
    rintro ⟨c, r⟩ ⟨hc, hr, hjr⟩
    dsimp only at hc hr hjr
    rcases key c r hc hr hjr with ⟨rfl, _, rfl⟩ | ⟨_, _, _, _⟩ | ⟨_, _, _⟩
    · rfl
    · omega
    · omega
  · by_cases h1 : j < 4 * h
    · refine ⟨(1, (j - 2 * h) / 2), ⟨by dsimp only; omega, by dsimp only; omega, by dsimp only; omega⟩, ?_⟩
      rintro ⟨c, r⟩ ⟨hc, hr, hjr⟩
      dsimp only at hc hr hjr
      rcases key c r hc hr hjr with ⟨_, _, _⟩ | ⟨rfl, _, _, rfl⟩ | ⟨_, _, _⟩
      · omega
      · rfl
      · omega
    · refine ⟨(2, (j - 4 * h) / 2), ⟨by dsimp only; omega, by dsimp only; omega, by dsimp only; omega⟩, ?_⟩
      rintro ⟨c, r⟩ ⟨hc, hr, hjr⟩
      dsimp only at hc hr hjr
      rcases key c r hc hr hjr with ⟨_, _, _⟩ | ⟨_, _, _, _⟩ | ⟨rfl, _, rfl⟩
      · omega
      · omega
      · rfl

/-- C8 at height 1 with the table `00 02 00 02 00 02`. -/
theorem length_table_sums_witness :
    (1 ≤ MAX_RES ∧ ([0, 2, 0, 2, 0, 2] : List byte).length = 3 * 1 * 2) ∧
    (∀ c, c < 3 →
      (parse_table (fun i => ([0, 2, 0, 2, 0, 2] : List byte).getD i 0)
          ((1 * 2) % 4294967296)).rle_channel_size c =
        ∑ r ∈ Finset.range 1,
          (256 * (([0, 2, 0, 2, 0, 2] : List byte).getD (2 * 1 * c + 2 * r) 0).val +
            (([0, 2, 0, 2, 0, 2] : List byte).getD (2 * 1 * c + 2 * r + 1) 0).val)) ∧
    (parse_table (fun i => ([0, 2, 0, 2, 0, 2] : List byte).getD i 0)
        ((1 * 2) % 4294967296)).rle_total_encoded_size =
      (parse_table (fun i => ([0, 2, 0, 2, 0, 2] : List byte).getD i 0)
        ((1 * 2) % 4294967296)).rle_channel_size 0 +
      (parse_table (fun i => ([0, 2, 0, 2, 0, 2] : List byte).getD i 0)
        ((1 * 2) % 4294967296)).rle_channel_size 1 +
      (parse_table (fun i => ([0, 2, 0, 2, 0, 2] : List byte).getD i 0)
        ((1 * 2) % 4294967296)).rle_channel_size 2 ∧
    (∀ j, j < ([0, 2, 0, 2, 0, 2] : List byte).length → ∃! cr : Nat × Nat, cr.1 < 3 ∧ cr.2 < 1 ∧
      (j = 2 * 1 * cr.1 + 2 * cr.2 ∨ j = 2 * 1 * cr.1 + 2 * cr.2 + 1)) :=
  ⟨⟨by decide, by decide⟩, length_table_sums 1 [0, 2, 0, 2, 0, 2] (by decide) (by decide)⟩

theorem uswap16_lt (p0 p1 : byte) : uswap16 p0 p1 < 65536 := by
  have h0 := p0.isLt
  have h1 := p1.isLt
  rw [uswap16_value]
  split <;> omega

theorem uint_as_int_of_short (x : Nat) (h : x < 65536) : uint_as_int x = (x : Int) := by
  unfold uint_as_int
  rw [if_pos (by omega)]

theorem pixel_count_of_short (w h : Nat) (hw : w < 65536) (hh : h < 65536) :
    pixel_count w h = w * h := by
  have : w * h ≤ 65535 * 65535 := Nat.mul_le_mul (by omega) (by omega)
  unfold pixel_count
  rw [Nat.mul_comm h]
  omega

theorem toString_natCast (n : Nat) : toString ((n : Nat) : Int) = toString n := rfl

theorem pixel_count_eq (w h : Nat) (hw : w ≤ MAX_RES) (hh : h ≤ MAX_RES) :
    pixel_count w h = w * h := by
  have : w * h ≤ MAX_RES * MAX_RES := Nat.mul_le_mul hw hh
  unfold pixel_count
  rw [Nat.mul_comm h]
  unfold MAX_RES at this
  omega

theorem write_ppm_eq (w h : Nat) (image : Nat → ch_buf) :
    write_ppm w h image =
      [OutLine.tag, OutLine.dims w h, OutLine.maxval] ++
        (List.range (pixel_count w h)).map
          (fun i => OutLine.pixel (u_getat (image 0) i) (u_getat (image 1) i)
            (u_getat (image 2) i)) := rfl

theorem range_map_getD {α : Type} (l : List α) (d : α) (n : Nat) (h : l.length = n) :
    (List.range n).map (fun i => l.getD i d) = l := by
  subst h
  apply List.ext_getElem
  · simp
  · intro i h1 h2
    simp [List.getD_eq_getElem?_getD, h2]

theorem u_getat_of_lt (c : ch_buf) (i : Nat) (h : i < c.size) :
    u_getat c i = ((c.array.getD i 0).val : Int) := by
  unfold u_getat
  rw [if_neg (by omega)]

/-- C11: for a width and a height that fit the `unsigned short` returned by `uswap16` and
three channel buffers that each hold exactly `w * h` values, the text written by the assembler is the line `P3`, the line with
`w` and `h`, the line `255` and then, for `i = 0, 1, .., w*h - 1` in this order, the line
made of the decimal values of `R[i]`, `G[i]`, `B[i]` separated by single spaces; the values
`R[0], .., R[w*h - 1]` taken in this order are the whole buffer, and so for `G` and `B`. -/
theorem assembler_output (w h : Nat) (image : Nat → ch_buf) (hw : w < 65536)
    (hh : h < 65536) (hsize : ∀ c, c < 3 → (image c).size = w * h)
    (hlen : ∀ c, c < 3 → (image c).array.length = w * h) :
    (write_ppm w h image).map render =
      ["P3\n", toString w ++ " " ++ toString h ++ "\n", "255\n"] ++
        (List.range (w * h)).map
          (fun i => toString ((image 0).array.getD i 0).val ++ " " ++
            toString ((image 1).array.getD i 0).val ++ " " ++
            toString ((image 2).array.getD i 0).val ++ "\n") ∧
    ∀ c, c < 3 → (List.range (w * h)).map (fun i => (image c).array.getD i 0) = (image c).array := by
  refine ⟨?_, fun c hc => range_map_getD _ 0 _ (hlen c hc)⟩
  rw [write_ppm_eq, pixel_count_of_short w h hw hh, List.map_append, List.map_map]
  congr 1
  · simp only [List.map, render, uint_as_int_of_short w hw, uint_as_int_of_short h hh,
      toString_natCast]
  · apply List.map_congr_left
    intro i hi
    have hi' : i < w * h := List.mem_range.1 hi
    simp only [Function.comp_apply, render]
    rw [u_getat_of_lt _ i (by rw [hsize 0 (by decide)]; exact hi'),
      u_getat_of_lt _ i (by rw [hsize 1 (by decide)]; exact hi'),
      u_getat_of_lt _ i (by rw [hsize 2 (by decide)]; exact hi'),
      toString_natCast, toString_natCast, toString_natCast]

/-- C11 on the three buffers decoded from `synth_doc_even`, a 2x1 image. -/
theorem assembler_output_witness :
    ((2 : Nat) < 65536 ∧ (1 : Nat) < 65536 ∧
      (∀ c, c < 3 → ((final_state (decoded env0 synth_doc_even)).image c).size = 2 * 1) ∧
      (∀ c, c < 3 → ((final_state (decoded env0 synth_doc_even)).image c).array.length = 2 * 1)) ∧
    (write_ppm 2 1 (final_state (decoded env0 synth_doc_even)).image).map render =
      ["P3\n", toString 2 ++ " " ++ toString 1 ++ "\n", "255\n"] ++
        (List.range (2 * 1)).map
          (fun i =>
            toString (((final_state (decoded env0 synth_doc_even)).image 0).array.getD i 0).val
              ++ " " ++
            toString (((final_state (decoded env0 synth_doc_even)).image 1).array.getD i 0).val
              ++ " " ++
            toString (((final_state (decoded env0 synth_doc_even)).image 2).array.getD i 0).val
              ++ "\n") ∧
    ∀ c, c < 3 →
      (List.range (2 * 1)).map
          (fun i => ((final_state (decoded env0 synth_doc_even)).image c).array.getD i 0) =
        ((final_state (decoded env0 synth_doc_even)).image c).array :=
  ⟨⟨by decide, by decide, by decide!, by decide!⟩,
    assembler_output 2 1 (final_state (decoded env0 synth_doc_even)).image (by decide)
      (by decide) (by decide!) (by decide!)⟩

/-! ## Sequences of appends -/

theorem append_all_cons (v : byte) (vs : List byte) (c : ch_buf) :
    append_all (v :: vs) c = append_all vs (u_append c v) := rfl

theorem append_all_array (vs : List byte) (c : ch_buf) :
    (append_all vs c).array = c.array ++ vs := by
  induction vs generalizing c with
  | nil => simp [append_all]
  | cons v vs ih => rw [append_all_cons, ih, u_append_array]; simp

theorem append_all_size (vs : List byte) (c : ch_buf) (hc : c.size < 4294967296) :
    (append_all vs c).size = (c.size + vs.length) % 4294967296 := by
  induction vs generalizing c with
  | nil => simp [append_all]; omega
  | cons v vs ih =>
    rw [append_all_cons, ih _ (by rw [u_append_size]; omega), u_append_size, List.length_cons]
    omega

theorem u_append_capacity (c : ch_buf) (v : byte) :
    (u_append c v).capacity =
      if c.size = c.capacity then (2 * c.capacity) % 4294967296 else c.capacity := by
  unfold u_append
  simp only [Nat.shiftLeft_eq, pow_one, Nat.mul_comm]

/-- The invariant of the container while at most `2^31` values are appended: the capacity
is `256 * 2^k` with `k` the number of reallocations, it is at least the size, and it was
not doubled before the size had reached it. -/
theorem append_all_capacity :
    ∀ (vs : List byte) (c : ch_buf) (m k : Nat), c.size = m → c.capacity = 256 * 2 ^ k →
      m ≤ c.capacity → (k = 0 ∨ c.capacity < 2 * m) → m + vs.length ≤ 2147483648 →
      (append_all vs c).size = m + vs.length ∧
      (append_all vs c).capacity = 256 * 2 ^ (k + realloc_count vs c) ∧
      (append_all vs c).size ≤ (append_all vs c).capacity ∧
      (k + realloc_count vs c = 0 ∨ (append_all vs c).capacity < 2 * (append_all vs c).size) := by
  intro vs
  induction vs with
  | nil =>
    intro c m k hs hcap hle hleast _
    simp only [append_all, List.foldl_nil, realloc_count, List.length_nil, Nat.add_zero]
    exact ⟨hs, hcap, by omega, by rw [hs]; exact hleast⟩
  | cons v vs ih =>
    intro c m k hs hcap hle hleast hn
    rw [List.length_cons] at hn
    rw [append_all_cons, List.length_cons]
    have hpos : 256 ≤ c.capacity := by
      rw [hcap]
      have := Nat.one_le_two_pow (n := k)
      omega
    have hsz : (u_append c v).size = m + 1 := by rw [u_append_size, hs]; omega
    by_cases hfull : c.size = c.capacity
    · have hcap1 : (u_append c v).capacity = 256 * 2 ^ (k + 1) := by
        rw [u_append_capacity, if_pos hfull, pow_succ, ← Nat.mul_assoc, ← hcap]
        omega
      have hrc : realloc_count (v :: vs) c = 1 + realloc_count vs (u_append c v) := by
        simp only [realloc_count, if_pos hfull]
      obtain ⟨r1, r2, r3, r4⟩ := ih (u_append c v) (m + 1) (k + 1) hsz hcap1
        (by rw [hcap1, pow_succ, ← Nat.mul_assoc, ← hcap]; omega)
        (Or.inr (by rw [hcap1, pow_succ, ← Nat.mul_assoc, ← hcap]; omega)) (by omega)
      rw [hrc, show k + (1 + realloc_count vs (u_append c v)) =
        k + 1 + realloc_count vs (u_append c v) by omega]
      exact ⟨by rw [r1]; omega, r2, r3, r4⟩
    · have hcap1 : (u_append c v).capacity = 256 * 2 ^ k := by
        rw [u_append_capacity, if_neg hfull, hcap]
      have hrc : realloc_count (v :: vs) c = realloc_count vs (u_append c v) := by
        simp only [realloc_count, if_neg hfull, Nat.zero_add]
      obtain ⟨r1, r2, r3, r4⟩ := ih (u_append c v) (m + 1) k hsz hcap1
        (by rw [hcap1, ← hcap]; omega)
        (by rcases hleast with h0 | h0
            · exact Or.inl h0
            · exact Or.inr (by rw [hcap1, ← hcap]; omega)) (by omega)
      rw [hrc]
      exact ⟨by rw [r1]; omega, r2, r3, r4⟩

theorem append_all_init (vs : List byte) (hn : vs.length ≤ 2147483648) :
    (append_all vs u_init).size = vs.length ∧
      (append_all vs u_init).capacity = 256 * 2 ^ (realloc_count vs u_init) ∧
      (append_all vs u_init).size ≤ (append_all vs u_init).capacity ∧
      (realloc_count vs u_init = 0 ∨
        (append_all vs u_init).capacity < 2 * (append_all vs u_init).size) := by
  have h := append_all_capacity vs u_init 0 0 rfl rfl (by decide) (Or.inl rfl) (by omega)
  simp only [Nat.zero_add] at h
  exact h

/-- C13: `u_getat` returns -1 exactly when the index is not below the size; below the size
it returns a value in `[0,255]`; the only cell of the array it reads is the one at the index,
and only when the index is below the size, so that its result does not depend on what the
array holds at or beyond the size. -/
theorem getat_bounds_checked (c : ch_buf) (i : Nat) :
    (u_getat c i = -1 ↔ i ≥ c.size) ∧
      (i < c.size → 0 ≤ u_getat c i ∧ u_getat c i ≤ 255) ∧
      (∀ j, j ∈ u_getat_reads c i → j = i ∧ j < c.size) ∧
      (∀ c' : ch_buf, c'.size = c.size →
        (∀ j, j < c.size → c'.array.getD j 0 = c.array.getD j 0) →
        u_getat c' i = u_getat c i) := by
  obtain ⟨b1, b2, b3⟩ := u_getat_bounds c i
  refine ⟨⟨fun h => ?_, fun h => ?_⟩, fun h => ⟨b3.2 h, b2⟩, ?_, ?_⟩
  · by_contra hlt
    have := b3.2 (by omega)
    omega
  · unfold u_getat; rw [if_pos h]
  · intro j hj
    unfold u_getat_reads at hj
    by_cases h : i ≥ c.size
    · rw [if_pos h] at hj; cases hj
    · rw [if_neg h] at hj
      have : j = i := by simpa using hj
      exact ⟨this, by omega⟩
  · intro c' hs hcells
    unfold u_getat
    rw [hs]
    by_cases h : i ≥ c.size
    · rw [if_pos h, if_pos h]
    · rw [if_neg h, if_neg h, hcells i (by omega)]

/-- C17: for a sequence of `n ≤ 2^31` values (the largest count for which the 32 bit
capacity does not overflow) appended to a fresh container, the size is `n`, the size is at
most the capacity, the capacity is `256 * 2^k` with `k` the number of reallocations, and `k`
is the least number with `n ≤ 256 * 2^k`; the capacity starts at 256 and an append changes
it only when the size equals it, by doubling. -/
theorem capacity_doubling (values : List byte) (hn : values.length ≤ 2147483648) :
    (append_all values u_init).size = values.length ∧
      (append_all values u_init).size ≤ (append_all values u_init).capacity ∧
      (append_all values u_init).capacity = 256 * 2 ^ (realloc_count values u_init) ∧
      values.length ≤ 256 * 2 ^ (realloc_count values u_init) ∧
      (∀ j, values.length ≤ 256 * 2 ^ j → realloc_count values u_init ≤ j) ∧
      u_init.capacity = 256 ∧
      (∀ (c : ch_buf) (v : byte), (u_append c v).capacity =
        if c.size = c.capacity then (2 * c.capacity) % 4294967296 else c.capacity) := by
  obtain ⟨r1, r2, r3, r4⟩ := append_all_init values hn
  refine ⟨r1, r3, r2, by rw [← r2, ← r1]; exact r3, ?_, rfl, u_append_capacity⟩
  intro j hj
  rcases r4 with h0 | h0
  · omega
  · rw [r2, r1] at h0
    have h1 : 256 * 2 ^ (realloc_count values u_init) < 256 * 2 ^ (j + 1) := by
      rw [pow_succ]; omega
    have h2 : 2 ^ (realloc_count values u_init) < 2 ^ (j + 1) := by omega
    have := (Nat.pow_lt_pow_iff_right (by decide)).1 h2
    omega

/-- C17 at the three values 16, 32, 48. -/
theorem capacity_doubling_witness :
    ([16, 32, 48] : List byte).length ≤ 2147483648 ∧
    (append_all [16, 32, 48] u_init).size = ([16, 32, 48] : List byte).length ∧
      (append_all [16, 32, 48] u_init).size ≤ (append_all [16, 32, 48] u_init).capacity ∧
      (append_all [16, 32, 48] u_init).capacity =
        256 * 2 ^ (realloc_count [16, 32, 48] u_init) ∧
      ([16, 32, 48] : List byte).length ≤ 256 * 2 ^ (realloc_count [16, 32, 48] u_init) ∧
      (∀ j, ([16, 32, 48] : List byte).length ≤ 256 * 2 ^ j →
        realloc_count [16, 32, 48] u_init ≤ j) ∧
      u_init.capacity = 256 ∧
      (∀ (c : ch_buf) (v : byte), (u_append c v).capacity =
        if c.size = c.capacity then (2 * c.capacity) % 4294967296 else c.capacity) :=
  ⟨by decide, capacity_doubling [16, 32, 48] (by decide)⟩

/-! ## Rejected control bytes and rejected headers -/

theorem is_ok_false_iff (r : Except rle_state rle_state) :
    is_ok r = false ↔ ¬ ∃ s, r = .ok s := by
  cases r with
  | ok s => simp [is_ok]
  | error e => simp [is_ok]

theorem main_of_aborted (env : Env) (file : List byte) (hacc : accepted env file)
    (h : is_ok (decoded env file) = false) :
    main env file = cleanup env (decode_events env file) := by
  have hmain := main_of_accepted env file hacc
  cases hd : decoded env file with
  | ok s => rw [hd] at h; cases h
  | error e => rw [hd] at hmain; exact hmain

/-- C18: a pair whose control byte is `0x80` (`-128`) makes the decoder jump to `cleanup`
with every channel buffer as it was; in a document that reaches the decode loop the loop
aborts if and only if some consumed control byte lies outside `[-127,0]`, and an abort
makes `main` return 1 with only the placeholder on standard output. -/
theorem control_x80_aborts (env : Env) (file : List byte) (hacc : accepted env file) :
    (∀ (comp_img : Nat → byte) (ch : Nat) (s : rle_state),
      comp_img ((s.offset + s.offset_local) % 4294967296) = 0x80 →
      ∃ s', rle_pair comp_img ch s = .error s' ∧ s'.image = s.image) ∧
    (is_ok (decoded env file) = false ↔
      ∃ ch p, p ∈ (final_state (decoded env file)).pairs ch ∧ ¬ (-127 ≤ p.1 ∧ p.1 ≤ 0)) ∧
    (is_ok (decoded env file) = false →
      (main env file).status = 1 ∧ (main env file).stdout = print_placeholder env) ∧
    (∀ ch p, p ∈ (final_state (decoded env file)).pairs ch → p.1 = -128 →
      (main env file).status = 1 ∧ (main env file).stdout = print_placeholder env) := by
  have hiff : is_ok (decoded env file) = false ↔
      ∃ ch p, p ∈ (final_state (decoded env file)).pairs ch ∧ ¬ (-127 ≤ p.1 ∧ p.1 ≤ 0) := by
    rw [is_ok_false_iff]
    unfold decoded
    rw [rle_decode_ok_iff]
    unfold all_valid valid_control
    push_neg
    rfl
  have habort : is_ok (decoded env file) = false →
      (main env file).status = 1 ∧ (main env file).stdout = print_placeholder env := by
    intro h
    rw [main_of_aborted env file hacc h]
    exact ⟨rfl, rfl⟩
  refine ⟨?_, hiff, habort, ?_⟩
  · intro comp_img ch s h
    have hc : to_char (comp_img ((s.offset + s.offset_local) % 4294967296)) = -128 := by
      rw [h]; decide
    exact ⟨_, rle_pair_invalid comp_img ch s (by rw [hc]; decide), rfl⟩
  · intro ch p hp h128
    exact habort (hiff.2 ⟨ch, p, hp, by rw [h128]; decide⟩)

/-- C18 at `x80_doc`, whose first pair is `(0x80, 0x10)`. -/
theorem control_x80_aborts_witness :
    accepted env0 x80_doc ∧
    ((-128 : Int), (0x10 : byte)) ∈ (final_state (decoded env0 x80_doc)).pairs 0 ∧
    ((final_state (decoded env0 x80_doc)).image 0).array = [] ∧
    (main env0 x80_doc).status = 1 ∧ (main env0 x80_doc).stdout = print_placeholder env0 := by
  obtain ⟨_, _, _, h4⟩ := control_x80_aborts env0 x80_doc (by decide!)
  have hp : ((-128 : Int), (0x10 : byte)) ∈ (final_state (decoded env0 x80_doc)).pairs 0 := by
    decide!
  exact ⟨by decide!, hp, by decide!, h4 0 _ hp rfl⟩

theorem table_entry_sum_le (buf : Nat → byte) (h c : Nat) :
    ∑ r ∈ Finset.range h, table_entry buf h c r ≤ 65535 * h := by
  have := entry_sum_le buf (2 * h * c) h
  simpa only [table_entry] using this

/-- C20: for a header with width and height at most 10000 and whatever the length-table
buffer holds, `rle_channel_length` is `2 * height`, `rle_header_size` is `6 * height`, every
`rle_channel_size[c]` is the exact sum of the `height` entries of channel `c`,
`rle_total_encoded_size` is the exact sum of all `3 * height` entries, `pixel_count` is
`width * height`, and all these values are below `2^32`. -/
theorem dimensions_do_not_wrap (env : Env) (file : List byte)
    (hw : width env file ≤ MAX_RES) (hh : height env file ≤ MAX_RES) :
    channel_length env file = 2 * height env file ∧
    header_size env file = 6 * height env file ∧
    (∀ c, c < 3 → (length_table env file).rle_channel_size c =
      ∑ r ∈ Finset.range (height env file),
        table_entry (table_read env file).2 (height env file) c r) ∧
    (length_table env file).rle_total_encoded_size =
      ∑ c ∈ Finset.range 3, ∑ r ∈ Finset.range (height env file),
        table_entry (table_read env file).2 (height env file) c r ∧
    pixel_count (width env file) (height env file) = width env file * height env file ∧
    (6 * height env file < 4294967296 ∧
      (∀ c, c < 3 → ∑ r ∈ Finset.range (height env file),
        table_entry (table_read env file).2 (height env file) c r < 4294967296) ∧
      ∑ c ∈ Finset.range 3, ∑ r ∈ Finset.range (height env file),
        table_entry (table_read env file).2 (height env file) c r < 4294967296 ∧
      width env file * height env file < 4294967296) := by
  have hcl : channel_length env file = 2 * height env file := by
    unfold channel_length; unfold MAX_RES at hh; omega
  have hhs : header_size env file = 6 * height env file := by
    unfold header_size; rw [hcl]; unfold MAX_RES at hh; omega
  obtain ⟨p1, p2⟩ := parse_table_sums (table_read env file).2 (height env file) hh
  have hlt : length_table env file =
      parse_table (table_read env file).2 (2 * height env file) := by
    unfold length_table; rw [hcl]
  have l0 := table_entry_sum_le (table_read env file).2 (height env file) 0
  have l1 := table_entry_sum_le (table_read env file).2 (height env file) 1
  have l2 := table_entry_sum_le (table_read env file).2 (height env file) 2
  have hwh : width env file * height env file ≤ MAX_RES * MAX_RES := Nat.mul_le_mul hw hh
  have hsum3 : ∑ c ∈ Finset.range 3, ∑ r ∈ Finset.range (height env file),
      table_entry (table_read env file).2 (height env file) c r =
      ∑ r ∈ Finset.range (height env file),
        table_entry (table_read env file).2 (height env file) 0 r +
      ∑ r ∈ Finset.range (height env file),
        table_entry (table_read env file).2 (height env file) 1 r +
      ∑ r ∈ Finset.range (height env file),
        table_entry (table_read env file).2 (height env file) 2 r := by
    simp [Finset.sum_range_succ]
  unfold MAX_RES at hh hwh
  refine ⟨hcl, hhs, ?_, ?_, pixel_count_eq _ _ hw (by unfold MAX_RES; exact hh),
    by omega, ?_, ?_, by omega⟩
  · intro c hc
    rw [hlt]
    exact p1 c hc
  · rw [hlt, p2, p1 0 (by decide), p1 1 (by decide), p1 2 (by decide), hsum3]
  · intro c hc
    have := table_entry_sum_le (table_read env file).2 (height env file) c
    omega
  · rw [hsum3]; omega

/-- C20 at `tiny_doc`. -/
theorem dimensions_do_not_wrap_witness :
    (width env0 tiny_doc ≤ MAX_RES ∧ height env0 tiny_doc ≤ MAX_RES) ∧
    channel_length env0 tiny_doc = 2 * height env0 tiny_doc ∧
    header_size env0 tiny_doc = 6 * height env0 tiny_doc ∧
    (∀ c, c < 3 → (length_table env0 tiny_doc).rle_channel_size c =
      ∑ r ∈ Finset.range (height env0 tiny_doc),
        table_entry (table_read env0 tiny_doc).2 (height env0 tiny_doc) c r) ∧
    (length_table env0 tiny_doc).rle_total_encoded_size =
      ∑ c ∈ Finset.range 3, ∑ r ∈ Finset.range (height env0 tiny_doc),
        table_entry (table_read env0 tiny_doc).2 (height env0 tiny_doc) c r ∧
    pixel_count (width env0 tiny_doc) (height env0 tiny_doc) =
      width env0 tiny_doc * height env0 tiny_doc ∧
    (6 * height env0 tiny_doc < 4294967296 ∧
      (∀ c, c < 3 → ∑ r ∈ Finset.range (height env0 tiny_doc),
        table_entry (table_read env0 tiny_doc).2 (height env0 tiny_doc) c r < 4294967296) ∧
      ∑ c ∈ Finset.range 3, ∑ r ∈ Finset.range (height env0 tiny_doc),
        table_entry (table_read env0 tiny_doc).2 (height env0 tiny_doc) c r < 4294967296 ∧
      width env0 tiny_doc * height env0 tiny_doc < 4294967296) :=
  ⟨⟨by decide!, by decide!⟩, dimensions_do_not_wrap env0 tiny_doc (by decide!) (by decide!)⟩

/-! ## Counts and sizes after the decode -/

/-- C14 (on the code): `skew_doc` passes every check and `main` returns 0, the three
recorded counts being 0; yet the first buffer holds 128 values and the other two none, and
the only pixel line is `7 -1 -1`. -/
theorem equal_counts_unequal_sizes :
    accepted env0 skew_doc ∧ (main env0 skew_doc).status = 0 ∧
    (final_state (decoded env0 skew_doc)).out_channel_len 0 = 0 ∧
    (final_state (decoded env0 skew_doc)).out_channel_len 1 = 0 ∧
    (final_state (decoded env0 skew_doc)).out_channel_len 2 = 0 ∧
    ((final_state (decoded env0 skew_doc)).image 0).size = 128 ∧
    ((final_state (decoded env0 skew_doc)).image 1).size = 0 ∧
    ((final_state (decoded env0 skew_doc)).image 2).size = 0 ∧
    (main env0 skew_doc).stdout.map render = ["P3\n", "1 1\n", "255\n", "7 -1 -1\n"] := by
  decide!

/-- C16 (on the code): in `run128_doc` every channel consists of the pair `(0x81, 7)` and
decodes without a jump to `cleanup`; the recorded count is `2^32 - 128`, the buffer holds
no value, and the sum of the run lengths of the consumed pairs is 128. -/
theorem count_differs_from_size :
    accepted env0 run128_doc ∧ is_ok (decoded env0 run128_doc) = true ∧
    (final_state (decoded env0 run128_doc)).pairs 0 = [(-127, 7)] ∧
    (final_state (decoded env0 run128_doc)).out_channel_len 0 = 4294967168 ∧
    ((final_state (decoded env0 run128_doc)).image 0).size = 0 ∧
    ((final_state (decoded env0 run128_doc)).image 0).array = [] ∧
    (((final_state (decoded env0 run128_doc)).pairs 0).map run_length).sum = 128 := by
  decide!

/-! ## Documents that hold every byte `main` reads -/

theorem rle_pair_congr (f g : Nat → byte) (ch : Nat) (s : rle_state)
    (h0 : f ((s.offset + s.offset_local) % 4294967296) =
      g ((s.offset + s.offset_local) % 4294967296))
    (h1 : f ((s.offset + s.offset_local + 1) % 4294967296) =
      g ((s.offset + s.offset_local + 1) % 4294967296)) :
    rle_pair f ch s = rle_pair g ch s := by
  unfold rle_pair
  rw [h0, h1]

theorem rle_pairs_congr (f g : Nat → byte) (size ch B : Nat)
    (hfg : ∀ i, i < B → f i = g i) (hB : B < 4294967296) :
    ∀ (fuel j : Nat) (s : rle_state), s.offset_local = 2 * j →
      s.offset + even_up size ≤ B →
      rle_pairs f size ch fuel s = rle_pairs g size ch fuel s := by
  intro fuel
  induction fuel with
  | zero => intro j s _ _; rfl
  | succ fuel ih =>
    intro j s hol hoff
    unfold rle_pairs
    by_cases hlt : s.offset_local < size
    · rw [if_pos hlt, if_pos hlt]
      have hj : 2 * j + 2 ≤ even_up size := by unfold even_up; omega
      have hpair : rle_pair f ch s = rle_pair g ch s := by
        apply rle_pair_congr
        · rw [hol]
          have e : (s.offset + 2 * j) % 4294967296 = s.offset + 2 * j := by omega
          rw [e]; exact hfg _ (by omega)
        · rw [hol]
          have e : (s.offset + 2 * j + 1) % 4294967296 = s.offset + 2 * j + 1 := by omega
          rw [e]; exact hfg _ (by omega)
      rw [hpair]
      cases h1 : rle_pair g ch s with
      | error e => rfl
      | ok s1 =>
        dsimp only
        rw [← hpair] at h1
        obtain ⟨_, q1, q2, _⟩ := rle_pair_ok h1
        exact ih (j + 1) s1 (by rw [q2, hol]; omega) (by rw [q1]; exact hoff)
    · rw [if_neg hlt, if_neg hlt]

theorem rle_channel_congr (f g : Nat → byte) (sizes : Nat → Nat) (ch B : Nat)
    (hfg : ∀ i, i < B → f i = g i) (hB : B < 4294967296) (s : rle_state)
    (hoff : s.offset + even_up (sizes ch) ≤ B) :
    rle_channel f sizes ch s = rle_channel g sizes ch s := by
  unfold rle_channel
  dsimp only
  rw [rle_pairs_congr f g (sizes ch) ch B hfg hB (sizes ch) 0
    { s with offset_local := 0, starts := Function.update s.starts ch s.offset } rfl hoff]

theorem rle_decode_congr (f g : Nat → byte) (sizes : Nat → Nat) (B : Nat)
    (hfg : ∀ i, i < B → f i = g i) (hB : B < 4294967296)
    (hsum : stream_start sizes 3 ≤ B) :
    rle_decode f sizes = rle_decode g sizes := by
  have st3 : stream_start sizes 3 = even_up (sizes 0) + even_up (sizes 1) + even_up (sizes 2) := by
    simp [stream_start, Finset.sum_range_succ]
  rw [st3] at hsum
  unfold rle_decode
  have c0 := rle_channel_congr f g sizes 0 B hfg hB rle_init (by show 0 + _ ≤ _; omega)
  rw [c0]
  cases h0 : rle_channel g sizes 0 rle_init with
  | error e => rfl
  | ok s0 =>
    dsimp only
    obtain ⟨a1, _, _⟩ := rle_channel_reads (s := rle_init) (by show 0 + _ < _; omega) h0
    have a1' : s0.offset = even_up (sizes 0) := by rw [a1]; show 0 + _ = _; omega
    have c1 := rle_channel_congr f g sizes 1 B hfg hB s0 (by omega)
    rw [c1]
    cases h1 : rle_channel g sizes 1 s0 with
    | error e => rfl
    | ok s1 =>
      dsimp only
      obtain ⟨b1, _, _⟩ := rle_channel_reads (by omega) h1
      exact rle_channel_congr f g sizes 2 B hfg hB s1 (by omega)

theorem table_entries_offset (buf : Nat → byte) (n ch : Nat) :
    ∀ (fuel i : Nat) (t : table_state), (table_entries buf n ch fuel i t).offset = t.offset := by
  intro fuel
  induction fuel with
  | zero => intro i t; rfl
  | succ fuel ih =>
    intro i t
    unfold table_entries
    split
    · dsimp only; rw [ih]
    · rfl

theorem table_entries_congr (f g : Nat → byte) (h ch B : Nat)
    (hfg : ∀ i, i < B → f i = g i) (hB : B < 4294967296) :
    ∀ (fuel j : Nat) (t : table_state), t.offset + 2 * h ≤ B →
      table_entries f (2 * h) ch fuel (2 * j) t = table_entries g (2 * h) ch fuel (2 * j) t := by
  intro fuel
  induction fuel with
  | zero => intro j t _; rfl
  | succ fuel ih =>
    intro j t hoff
    unfold table_entries
    by_cases hlt : 2 * j < 2 * h
    · rw [if_pos hlt, if_pos hlt]
      dsimp only
      have hptr : (2 * j + t.offset) % 4294967296 = t.offset + 2 * j := by omega
      have hi : (2 * j + 2) % 4294967296 = 2 * (j + 1) := by omega
      rw [hptr, hi, hfg (t.offset + 2 * j) (by omega), hfg (t.offset + 2 * j + 1) (by omega)]
      exact ih (j + 1) _ hoff
    · rw [if_neg hlt, if_neg hlt]

theorem table_channel_congr (f g : Nat → byte) (h ch B : Nat)
    (hfg : ∀ i, i < B → f i = g i) (hB : B < 4294967296) (t : table_state)
    (hoff : t.offset + 2 * h ≤ B) :
    table_channel f (2 * h) ch t = table_channel g (2 * h) ch t := by
  unfold table_channel
  have := table_entries_congr f g h ch B hfg hB (2 * h) 0 t hoff
  rw [Nat.mul_zero] at this
  rw [this]

theorem table_channel_offset (buf : Nat → byte) (n ch : Nat) (t : table_state) :
    (table_channel buf n ch t).offset = (t.offset + n) % 4294967296 := by
  unfold table_channel
  dsimp only
  rw [table_entries_offset]

theorem parse_table_congr (f g : Nat → byte) (h B : Nat)
    (hfg : ∀ i, i < B → f i = g i) (hB : B < 4294967296) (h6 : 6 * h ≤ B) :
    parse_table f (2 * h) = parse_table g (2 * h) := by
  unfold parse_table
  dsimp only
  rw [table_channel_congr f g h 0 B hfg hB _ (by dsimp only; omega)]
  have o0 := table_channel_offset g (2 * h) 0
    { rle_total_encoded_size := 0, rle_channel_size := fun _ => 0, offset := 0 }
  dsimp only at o0
  rw [table_channel_congr f g h 1 B hfg hB _ (by rw [o0]; omega)]
  have o1 := table_channel_offset g (2 * h) 1 (table_channel g (2 * h) 0
    { rle_total_encoded_size := 0, rle_channel_size := fun _ => 0, offset := 0 })
  rw [table_channel_congr f g h 2 B hfg hB _ (by rw [o1, o0]; omega)]

theorem total_encoded_size_lt (env : Env) (file : List byte) (hh : height env file ≤ MAX_RES) :
    channel_length env file = 2 * height env file ∧
      header_size env file = 6 * height env file ∧
      (length_table env file).rle_total_encoded_size < 4294967296 := by
  have hcl : channel_length env file = 2 * height env file := by
    unfold channel_length; unfold MAX_RES at hh; omega
  have hhs : header_size env file = 6 * height env file := by
    unfold header_size; rw [hcl]; unfold MAX_RES at hh; omega
  obtain ⟨p1, p2⟩ := parse_table_sums (table_read env file).2 (height env file) hh
  have l0 := table_entry_sum_le (table_read env file).2 (height env file) 0
  have l1 := table_entry_sum_le (table_read env file).2 (height env file) 1
  have l2 := table_entry_sum_le (table_read env file).2 (height env file) 2
  refine ⟨hcl, hhs, ?_⟩
  unfold length_table
  rw [hcl, p2, p1 0 (by decide), p1 1 (by decide), p1 2 (by decide)]
  unfold MAX_RES at hh
  omega

theorem read_fst (file : List byte) (pos count : Nat) (buf : Nat → byte) :
    (read file pos buf count).1 = min count (file.length - pos) := rfl

theorem read_snd_of_lt (file : List byte) (pos count : Nat) (buf : Nat → byte) (i : Nat)
    (hi : i < count) (hlen : pos + count ≤ file.length) :
    (read file pos buf count).2 i = file.getD (pos + i) 0 := by
  unfold read
  have : i < min count (file.length - pos) := by omega
  simp only [this, if_true]

/-- For a complete document the bytes left in fresh blocks play no part: another
environment sees the same resolution, accepts the document as well and decodes the same
state. -/
theorem heap_independent (env env' : Env) (file : List byte) (hc : complete env file) :
    width env' file = width env file ∧ height env' file = height env file ∧
      accepted env' file ∧ decoded env' file = decoded env file := by
  obtain ⟨⟨h40, hsig, hw, hh, hrd⟩, hlen, hsum⟩ := hc
  have hhead : ∀ i, i < PSS_HEAD → header env' file i = header env file i := by
    intro i hi
    rw [header_eq env' file h40 i hi, header_eq env file h40 i hi]
  have hwid : width env' file = width env file := by
    unfold width; rw [hhead 8 (by decide), hhead 9 (by decide)]
  have hhei : height env' file = height env file := by
    unfold height; rw [hhead 12 (by decide), hhead 13 (by decide)]
  have hsig' : signature_mismatch (header env' file) = false := by
    cases hs : signature_mismatch (header env' file) with
    | false => rfl
    | true =>
      obtain ⟨i, hi, hne⟩ := (signature_mismatch_iff _).1 hs
      rw [hhead i (by unfold PSS_HEAD; omega)] at hne
      have := (signature_mismatch_iff (header env file)).2 ⟨i, hi, hne⟩
      rw [hsig] at this
      cases this
  obtain ⟨hcl, hhs, htot⟩ := total_encoded_size_lt env file hh
  obtain ⟨hcl', hhs', _⟩ := total_encoded_size_lt env' file (by rw [hhei]; exact hh)
  rw [hhei] at hcl' hhs'
  have hrd1 : (table_read env' file).1 = (table_read env file).1 := by
    unfold table_read
    rw [read_fst, read_fst, hhs, hhs']
  have hrd_full : (table_read env file).1 = header_size env file := by
    unfold table_read
    rw [read_fst]
    omega
  have htab : ∀ i, i < 6 * height env file →
      (table_read env' file).2 i = (table_read env file).2 i := by
    intro i hi
    unfold table_read
    rw [read_snd_of_lt _ _ _ _ _ (by omega) (by omega),
      read_snd_of_lt _ _ _ _ _ (by omega) (by omega)]
  have hlt : length_table env' file = length_table env file := by
    unfold length_table
    rw [hcl, hcl']
    exact parse_table_congr _ _ (height env file) (6 * height env file) htab
      (by unfold MAX_RES at hh; omega) (Nat.le_refl _)
  have hpay : ∀ i, i < (length_table env file).rle_total_encoded_size →
      payload env' file i = payload env file i := by
    intro i hi
    unfold payload
    rw [hlt, hrd1, hrd_full,
      read_snd_of_lt _ _ _ _ _ hi (by omega), read_snd_of_lt _ _ _ _ _ hi (by omega)]
  refine ⟨hwid, hhei, ⟨h40, hsig', by rw [hwid]; exact hw, by rw [hhei]; exact hh,
    by rw [hrd1]; exact hrd⟩, ?_⟩
  unfold decoded
  rw [hlt]
  exact rle_decode_congr _ _ _ _ hpay htot hsum

/-- C15 (counterexample): for the document of the claim the three channel sizes read from
the length table are 512, not 2, so the decoder runs past the six payload bytes; with fresh
blocks full of zeros `main` returns 0 and the two pixel lines are `16 0 0` and `32 0 0`. -/
theorem synthetic_document_output :
    accepted env0 synth_doc ∧ width env0 synth_doc = 2 ∧ height env0 synth_doc = 1 ∧
    (length_table env0 synth_doc).rle_channel_size 0 = 512 ∧
    (length_table env0 synth_doc).rle_channel_size 1 = 512 ∧
    (length_table env0 synth_doc).rle_channel_size 2 = 512 ∧
    (main env0 synth_doc).status = 0 ∧
    (main env0 synth_doc).stdout.map render =
      ["P3\n", "2 1\n", "255\n", "16 0 0\n", "32 0 0\n"] := by
  decide!

/-- C15 (amended): for the 2x1 document `synth_doc_even`, whose length table holds the
big-endian entry 4 for each channel and whose payload is `00 10 00 20` for each channel,
`main` returns 0 in every environment and writes the lines `P3`, `2 1`, `255`,
`16 16 16` and `32 32 32`. -/
theorem synthetic_document_even (env : Env) :
    (main env synth_doc_even).status = 0 ∧
      (main env synth_doc_even).stdout.map render =
        ["P3\n", "2 1\n", "255\n", "16 16 16\n", "32 32 32\n"] := by
  obtain ⟨hw, hh, hacc, hdec⟩ := heap_independent env0 env synth_doc_even (by decide!)
  have hmain := main_of_accepted env synth_doc_even hacc
  have hok : decoded env0 synth_doc_even = .ok (final_state (decoded env0 synth_doc_even)) :=
    ok_final_state (by decide!)
  have hdiv : lengths_diverge (final_state (decoded env0 synth_doc_even)).out_channel_len
      = false := by decide!
  rw [hdec, hok] at hmain
  dsimp only at hmain
  rw [hdiv, hw, hh] at hmain
  rw [hmain]
  refine ⟨rfl, ?_⟩
  show (write_ppm (width env0 synth_doc_even) (height env0 synth_doc_even)
    (final_state (decoded env0 synth_doc_even)).image).map render = _
  decide!

/-! ## What the decode loop leaves in the buffers and in the counts -/

theorem append_all_append (a b : List byte) (c : ch_buf) :
    append_all (a ++ b) c = append_all b (append_all a c) := by
  unfold append_all
  rw [List.foldl_append]

theorem iterate_eq_append_all (v : byte) (n : Nat) (c : ch_buf) :
    (fun c => u_append c v)^[n] c = append_all (List.replicate n v) c := by
  induction n generalizing c with
  | zero => rfl
  | succ n ih =>
    rw [Function.iterate_succ_apply, ih, List.replicate_succ, append_all_cons]

theorem expand_append (a b : List (Int × byte)) : expand (a ++ b) = expand a ++ expand b := by
  induction a with
  | nil => rfl
  | cons p a ih =>
    show List.replicate (appended p) p.2 ++ expand (a ++ b) = _
    rw [ih]
    simp only [expand, List.append_assoc]

theorem expand_singleton (p : Int × byte) : expand [p] = List.replicate (appended p) p.2 := by
  simp only [expand, List.append_nil]

theorem rle_pair_effect {comp_img : Nat → byte} {ch : Nat} {s s' : rle_state}
    (h : rle_pair comp_img ch s = .ok s') :
    ∃ p : Int × byte, valid_control p.1 ∧ s'.pairs ch = s.pairs ch ++ [p] ∧
      s'.image ch = append_all (expand [p]) (s.image ch) ∧
      s'.repeat_c = int_to_uint ((s.repeat_c : Int) + counted p) ∧
      (∀ k, k ≠ ch → s'.pairs k = s.pairs k ∧ s'.image k = s.image k) ∧
      s'.out_channel_len = s.out_channel_len := by
  refine ⟨(to_char (comp_img ((s.offset + s.offset_local) % 4294967296)),
    comp_img ((s.offset + s.offset_local + 1) % 4294967296)), ?_⟩
  rw [expand_singleton]
  by_cases h0 : to_char (comp_img ((s.offset + s.offset_local) % 4294967296)) = 0
  · rw [rle_pair_literal comp_img ch s h0] at h
    cases h
    refine ⟨by unfold valid_control; omega, by simp [note_pair], ?_, ?_, ?_, rfl⟩
    · simp only [note_pair, Function.update_same, appended, counted, h0, if_true]
      rfl
    · simp only [counted, h0, if_true]
      unfold int_to_uint
      omega
    · intro k hk
      simp [note_pair, Function.update_noteq hk]
  · by_cases h12 : -127 ≤ to_char (comp_img ((s.offset + s.offset_local) % 4294967296)) ∧
        to_char (comp_img ((s.offset + s.offset_local) % 4294967296)) ≤ -1
    · rw [rle_pair_repeat comp_img ch s h12.1 h12.2] at h
      cases h
      refine ⟨by unfold valid_control; omega, by simp [note_pair], ?_, ?_, ?_, rfl⟩
      · simp only [note_pair, Function.update_same, appended, counted, h0, if_false]
        generalize to_char (comp_img ((s.offset + s.offset_local) % 4294967296)) = c at *
        by_cases h127 : c = -127
        · subst h127
          have hc : int_to_char (-127 * -1 + 1) = -128 := by decide
          rw [hc, repeat_loop_neg _ _ (by omega)]
          rfl
        · obtain ⟨n, hn⟩ : ∃ n : Nat, (n : Int) = -c + 1 := ⟨(-c + 1).toNat, by omega⟩
          have hc : int_to_char (c * -1 + 1) = (n : Int) := by
            rw [int_to_char_of_small] <;> omega
          have hz : (0 : Int) = ((0 : Nat) : Int) := rfl
          rw [hc, hz, repeat_loop_eq _ n (by omega) 128 0 _ (by omega) (by omega),
            Nat.sub_zero, iterate_eq_append_all, Int.toNat_ofNat]
      · simp only [counted, h0, if_false]
      · intro k hk
        simp [note_pair, Function.update_noteq hk]
    · rw [rle_pair_invalid comp_img ch s (by omega)] at h
      cases h

theorem int_to_uint_add (a : Nat) (x y : Int) :
    int_to_uint ((int_to_uint ((a : Int) + x) : Int) + y) = int_to_uint ((a : Int) + (x + y)) := by
  unfold int_to_uint
  omega

theorem rle_pairs_effect (comp_img : Nat → byte) (size ch : Nat) :
    ∀ (fuel : Nat) (s s' : rle_state), s.repeat_c < 4294967296 →
      rle_pairs comp_img size ch fuel s = .ok s' →
      ∃ new : List (Int × byte), s'.pairs ch = s.pairs ch ++ new ∧
        s'.image ch = append_all (expand new) (s.image ch) ∧
        s'.repeat_c = int_to_uint ((s.repeat_c : Int) + (new.map counted).sum) ∧
        (∀ k, k ≠ ch → s'.pairs k = s.pairs k ∧ s'.image k = s.image k) ∧
        s'.out_channel_len = s.out_channel_len := by
  intro fuel
  induction fuel with
  | zero =>
    intro s s' hrc h
    cases h
    exact ⟨[], by simp, rfl, by unfold int_to_uint; simp; omega, fun k _ => ⟨rfl, rfl⟩, rfl⟩
  | succ fuel ih =>
    intro s s' hrc h
    unfold rle_pairs at h
    by_cases hlt : s.offset_local < size
    · rw [if_pos hlt] at h
      cases h1 : rle_pair comp_img ch s with
      | error e => rw [h1] at h; cases h
      | ok s1 =>
        rw [h1] at h
        dsimp only at h
        obtain ⟨p, _, e1, e2, e3, e4, e5⟩ := rle_pair_effect h1
        have hrc1 : s1.repeat_c < 4294967296 := by
          rw [e3]; unfold int_to_uint; omega
        obtain ⟨new, f1, f2, f3, f4, f5⟩ := ih s1 s' hrc1 h
        refine ⟨p :: new, ?_, ?_, ?_, ?_, by rw [f5, e5]⟩
        · rw [f1, e1]; simp
        · rw [f2, e2, ← append_all_append, ← expand_append]; rfl
        · rw [f3, e3, int_to_uint_add]; simp
        · intro k hk
          exact ⟨by rw [(f4 k hk).1, (e4 k hk).1], by rw [(f4 k hk).2, (e4 k hk).2]⟩
    · rw [if_neg hlt] at h
      cases h
      exact ⟨[], by simp, rfl, by unfold int_to_uint; simp; omega, fun k _ => ⟨rfl, rfl⟩, rfl⟩

theorem rle_channel_effect {comp_img : Nat → byte} {sizes : Nat → Nat} {ch : Nat}
    {s s' : rle_state} (hrc : s.repeat_c = 0) (hp : s.pairs ch = []) (hi : s.image ch = u_init)
    (h : rle_channel comp_img sizes ch s = .ok s') :
    s'.image ch = append_all (expand (s'.pairs ch)) u_init ∧
      s'.out_channel_len ch = int_to_uint (((s'.pairs ch).map counted).sum) ∧
      s'.repeat_c = 0 ∧
      (∀ k, k ≠ ch → s'.pairs k = s.pairs k ∧ s'.image k = s.image k ∧
        s'.out_channel_len k = s.out_channel_len k) := by
  unfold rle_channel at h
  dsimp only at h
  split at h
  · cases h
  · rename_i s1 h1
    cases h
    obtain ⟨new, f1, f2, f3, f4, f5⟩ := rle_pairs_effect comp_img (sizes ch) ch (sizes ch)
      { s with offset_local := 0, starts := Function.update s.starts ch s.offset } s1
      (by dsimp only; omega) h1
    dsimp only at f1 f2 f3 f4 f5 ⊢
    rw [hp, List.nil_append] at f1
    rw [hi] at f2
    rw [hrc] at f3
    refine ⟨by rw [f2, f1], ?_, rfl, ?_⟩
    · rw [Function.update_same, f3, f1]; simp
    · intro k hk
      exact ⟨(f4 k hk).1, (f4 k hk).2, by rw [Function.update_noteq hk, f5]⟩

/-- After a decode loop that ends normally, the buffer of every channel holds the expansion
of the pairs consumed for it and its recorded count is the 32 bit sum of what each pair
added to `repeat_c`. -/
theorem rle_decode_effect (comp_img : Nat → byte) (sizes : Nat → Nat) (s : rle_state)
    (hs : rle_decode comp_img sizes = .ok s) :
    ∀ c, c < 3 → s.image c = append_all (expand (s.pairs c)) u_init ∧
      s.out_channel_len c = int_to_uint (((s.pairs c).map counted).sum) := by
  unfold rle_decode at hs
  cases h0 : rle_channel comp_img sizes 0 rle_init with
  | error e => rw [h0] at hs; cases hs
  | ok s0 =>
  rw [h0] at hs
  dsimp only at hs
  cases h1 : rle_channel comp_img sizes 1 s0 with
  | error e => rw [h1] at hs; cases hs
  | ok s1 =>
  rw [h1] at hs
  dsimp only at hs
  obtain ⟨a1, a2, a3, a4⟩ := rle_channel_effect (s := rle_init) rfl rfl rfl h0
  obtain ⟨b1, b2, b3, b4⟩ := rle_channel_effect (s := s0) a3
    (by rw [(a4 1 (by decide)).1]; rfl) (by rw [(a4 1 (by decide)).2.1]; rfl) h1
  obtain ⟨c1, c2, c3, c4⟩ := rle_channel_effect (s := s1) b3
    (by rw [(b4 2 (by decide)).1, (a4 2 (by decide)).1]; rfl)
    (by rw [(b4 2 (by decide)).2.1, (a4 2 (by decide)).2.1]; rfl) hs
  intro c hc
  interval_cases c
  · rw [(c4 0 (by decide)).1, (c4 0 (by decide)).2.1, (c4 0 (by decide)).2.2,
      (b4 0 (by decide)).1, (b4 0 (by decide)).2.1, (b4 0 (by decide)).2.2]
    exact ⟨a1, a2⟩
  · rw [(c4 1 (by decide)).1, (c4 1 (by decide)).2.1, (c4 1 (by decide)).2.2]
    exact ⟨b1, b2⟩
  · exact ⟨c1, c2⟩

theorem expand_length (ps : List (Int × byte)) :
    (expand ps).length = (ps.map appended).sum := by
  induction ps with
  | nil => rfl
  | cons p ps ih => simp only [expand, List.length_append, List.length_replicate, ih,
      List.map_cons, List.sum_cons]

theorem counted_of_plain (p : Int × byte) (hv : valid_control p.1) (h127 : p.1 ≠ -127) :
    counted p = (run_length p : Int) ∧ appended p = run_length p := by
  unfold valid_control at hv
  unfold appended counted run_length
  by_cases h0 : p.1 = 0
  · simp only [h0, if_true]
    exact ⟨rfl, rfl⟩
  · simp only [h0, if_false]
    have hc : int_to_char (p.1 * -1 + 1) = -p.1 + 1 := by
      rw [int_to_char_of_small] <;> omega
    rw [hc]
    exact ⟨by omega, rfl⟩

theorem counted_of_run128 (p : Int × byte) (h127 : p.1 = -127) :
    counted p = -128 ∧ appended p = 0 ∧ run_length p = 128 := by
  unfold appended counted run_length
  rw [h127]
  decide

theorem sums_of_plain (ps : List (Int × byte))
    (h : ∀ p, p ∈ ps → valid_control p.1 ∧ p.1 ≠ -127) :
    (ps.map counted).sum = (((ps.map run_length).sum : Nat) : Int) ∧
      (ps.map appended).sum = (ps.map run_length).sum := by
  induction ps with
  | nil => exact ⟨rfl, rfl⟩
  | cons p ps ih =>
    obtain ⟨i1, i2⟩ := ih (fun q hq => h q (List.mem_cons_of_mem _ hq))
    obtain ⟨c1, c2⟩ := counted_of_plain p (h p (List.mem_cons_self _ _)).1
      (h p (List.mem_cons_self _ _)).2
    refine ⟨?_, ?_⟩
    · rw [List.map_cons, List.sum_cons, i1, c1, List.map_cons, List.sum_cons]
      push_cast
      rfl
    · rw [List.map_cons, List.sum_cons, i2, c2, List.map_cons, List.sum_cons]

/-- The counts and sizes after a decode loop that ends normally: the buffer of channel `c`
holds the values appended for its pairs, its size is their number modulo `2^32`, and the
recorded count is the 32 bit sum of what the pairs added to `repeat_c`. When no consumed
control byte is -127 the count equals the size and both are the sum of the run lengths
modulo `2^32`; a pair with control -127 adds -128 to the count and nothing to the buffer. -/
theorem recorded_count (comp_img : Nat → byte) (sizes : Nat → Nat) (s : rle_state)
    (hs : rle_decode comp_img sizes = .ok s) (c : Nat) (hc : c < 3) :
    (s.image c).array = expand (s.pairs c) ∧
    (s.image c).size = ((s.pairs c).map appended).sum % 4294967296 ∧
    s.out_channel_len c = int_to_uint (((s.pairs c).map counted).sum) ∧
    ((∀ p, p ∈ s.pairs c → p.1 ≠ -127) →
      s.out_channel_len c = (s.image c).size ∧
      (s.image c).size = ((s.pairs c).map run_length).sum % 4294967296) ∧
    (∀ p, p ∈ s.pairs c → p.1 = -127 →
      counted p = -128 ∧ appended p = 0 ∧ run_length p = 128) := by
  obtain ⟨e1, e2⟩ := rle_decode_effect comp_img sizes s hs c hc
  have hv : all_valid s := by
    have := (rle_decode_ok_iff comp_img sizes).1 ⟨s, hs⟩
    rw [hs] at this
    exact this
  have harr : (s.image c).array = expand (s.pairs c) := by
    rw [e1, append_all_array]; rfl
  have hsize : (s.image c).size = ((s.pairs c).map appended).sum % 4294967296 := by
    rw [e1, append_all_size _ _ (by decide), expand_length]
    show (0 + _) % _ = _
    rw [Nat.zero_add]
  refine ⟨harr, hsize, e2, ?_, fun p _ h => counted_of_run128 p h⟩
  intro hplain
  obtain ⟨s1, s2⟩ := sums_of_plain (s.pairs c) (fun p hp => ⟨hv c p hp, hplain p hp⟩)
  have hcount : s.out_channel_len c = ((s.pairs c).map run_length).sum % 4294967296 := by
    rw [e2, s1]
    unfold int_to_uint
    omega
  rw [hsize, s2]
  exact ⟨hcount, rfl⟩

/-- Without a consumed control byte -127, equal recorded counts mean equal buffer sizes. -/
theorem equal_sizes_of_equal_counts (comp_img : Nat → byte) (sizes : Nat → Nat)
    (s : rle_state) (hs : rle_decode comp_img sizes = .ok s)
    (hplain : ∀ c p, p ∈ s.pairs c → p.1 ≠ -127)
    (h01 : s.out_channel_len 0 = s.out_channel_len 1)
    (h12 : s.out_channel_len 1 = s.out_channel_len 2) :
    (s.image 0).size = (s.image 1).size ∧ (s.image 1).size = (s.image 2).size := by
  obtain ⟨_, _, _, a, _⟩ := recorded_count comp_img sizes s hs 0 (by decide)
  obtain ⟨_, _, _, b, _⟩ := recorded_count comp_img sizes s hs 1 (by decide)
  obtain ⟨_, _, _, c, _⟩ := recorded_count comp_img sizes s hs 2 (by decide)
  have a1 := (a (hplain 0)).1
  have b1 := (b (hplain 1)).1
  have c1 := (c (hplain 2)).1
  omega

end Pssthumb
